import Mathlib

/-!
Verification of the dedit conversion engine (DOCX ⇄ TipTap JSON).

The definitions below are a shallow embedding of the repository sources:
  * `Dedit.Parser`   — src/backend/parser/docx_parser.py
  * `Dedit.Tiptap`   — src/backend/parser/tiptap_converter.py
  * `Dedit.Exporter` — src/backend/parser/docx_exporter.py
  * `Dedit.Vault`    — src/docx2tiptap/src/docx2tiptap/tiptap_converter.py
    (the raw-style extraction of `TipTapConverter.convert` /
    `_extract_and_store_raw_styles`) together with the restoration step,
    which is modelled from the spec because the module reading the
    reserved node back is not part of the sources.

Python dictionaries are modelled as association lists (`List (key × value)`)
with insertion-order-preserving update; Python string operations that the
sources use (`str.replace`, `str.lower`, `str.startswith`, `int(...)`) are
modelled by executable functions defined here, so that every theorem can be
evaluated on concrete inputs.
-/

namespace Dedit

/-- Lookup in an association list (Python `d[k]` / `d.get(k)`), first match. -/
def alookup {β : Type} (k : String) : List (String × β) → Option β
  | [] => none
  | (k', v) :: t => if k = k' then some v else alookup k t

/-- Python dict assignment `d[k] = v`: replaces the value in place if the key
is present (insertion order preserved), otherwise appends the new entry. -/
def dict_insert {β : Type} (k : String) (v : β) : List (String × β) → List (String × β)
  | [] => [(k, v)]
  | (k', v') :: t => if k = k' then (k, v) :: t else (k', v') :: dict_insert k v t

@[simp] theorem alookup_nil {β : Type} (k : String) : alookup (β := β) k [] = none := rfl

@[simp] theorem alookup_cons {β : Type} (k k' : String) (v : β) (t : List (String × β)) :
    alookup k ((k', v) :: t) = if k = k' then some v else alookup k t := rfl

theorem alookup_dict_insert_self {β : Type} (k : String) (v : β) (l : List (String × β)) :
    alookup k (dict_insert k v l) = some v := by
  induction l with
  | nil => simp [dict_insert]
  | cons h t ih =>
    obtain ⟨k', v'⟩ := h
    by_cases hk : k = k' <;> simp [dict_insert, hk, ih]

theorem alookup_dict_insert_ne {β : Type} (k k' : String) (v : β) (l : List (String × β))
    (h : k' ≠ k) : alookup k' (dict_insert k v l) = alookup k' l := by
  induction l with
  | nil => simp [dict_insert, h]
  | cons hd t ih =>
    obtain ⟨k₀, v₀⟩ := hd
    by_cases hk : k = k₀
    · subst hk
      simp [dict_insert, h]
    · by_cases hk' : k' = k₀ <;> simp [dict_insert, hk, hk', ih]

/-- One replacement pass, models Python `str.replace(pat, rep)` on the list of
characters: scans left to right, replacing non-overlapping occurrences.  The
first argument is fuel (the length of the scanned list), making the recursion
structural; the sources only call this with non-empty patterns. -/
def replace_list (pat rep : List Char) : Nat → List Char → List Char
  | _, [] => []
  | 0, l => l
  | fuel + 1, c :: rest =>
    if pat ≠ [] ∧ pat.isPrefixOf (c :: rest) then
      rep ++ replace_list pat rep fuel (List.drop (pat.length - 1) rest)
    else
      c :: replace_list pat rep fuel rest

/-- Python `s.replace(pat, rep)` (all non-overlapping occurrences, left to
right). -/
def py_replace (s pat rep : String) : String :=
  ⟨replace_list pat.data rep.data s.data.length s.data⟩

/-- Python `s.lower()` (ASCII case folding suffices for the strings the
sources lower-case, namely Roman numerals). -/
def py_lower (s : String) : String :=
  ⟨s.data.map Char.toLower⟩

/-- Python `s.startswith(p)`. -/
def py_startswith (s p : String) : Bool :=
  p.data.isPrefixOf s.data

/-- Value of a decimal digit character. -/
def digit_val? (c : Char) : Option Nat :=
  if 48 ≤ c.toNat ∧ c.toNat ≤ 57 then some (c.toNat - 48) else none

/-- Parse a non-empty all-digit character list. -/
def nat_of_digits? : List Char → Option Nat
  | [] => none
  | l =>
    l.foldl (fun acc c => match acc, digit_val? c with
      | some n, some d => some (10 * n + d)
      | _, _ => none) (some 0)

/-- Python `int(s)` restricted to optional sign plus decimal digits, returning
`none` where Python raises `ValueError`. -/
def py_int? (s : String) : Option Int :=
  match s.data with
  | '-' :: rest => (nat_of_digits? rest).map (fun n => -(n : Int))
  | '+' :: rest => (nat_of_digits? rest).map (fun n => (n : Int))
  | l => (nat_of_digits? l).map (fun n => (n : Int))

/-! ## The TipTap JSON node model

Nodes produced by the converters are Python dictionaries with the keys
`type`, `attrs`, `content`, `text` and `marks`, each optional except `type`.
`Option` distinguishes an absent key from a present-but-empty one, which the
sources treat differently (for example `{"type": "paragraph"}` versus
`{"type": "paragraph", "content": []}`). -/

/-- A TipTap mark dictionary `{type, attrs?}`. -/
structure Mark where
  type : String
  attrs : List (String × String) := []
deriving DecidableEq

/-- The attribute dictionary of a node.  Fields the engine reads or writes are
explicit; any further attributes ride along opaquely in `rest`.  The `data`
field of the reserved fidelity-storage node holds the key→fragment map; the
sources store it JSON-serialized (`json.dumps`) and parse it back, a faithful
round trip that is modelled by storing the association list itself. -/
structure Attrs where
  id : Option String := none
  level : Option Int := none
  rawTblPr : Option String := none
  rawTblGrid : Option String := none
  rawXml : Option String := none
  colwidth : Option (List Int) := none
  data : Option (List (String × String)) := none
  rest : List (String × String) := []

/-- A TipTap node dictionary. -/
inductive TNode where
  | mk (type : String) (attrs : Option Attrs) (content : Option (List TNode))
       (text : Option String) (marks : Option (List Mark))

/-- `node["type"]`. -/
def TNode.type : TNode → String
  | .mk t _ _ _ _ => t

/-- `node.get("attrs")`. -/
def TNode.attrs? : TNode → Option Attrs
  | .mk _ a _ _ _ => a

/-- `node.get("content")`. -/
def TNode.content? : TNode → Option (List TNode)
  | .mk _ _ c _ _ => c

/-- `node.get("content", [])`. -/
def TNode.contentD (n : TNode) : List TNode :=
  n.content?.getD []

/-- `node.get("text", "")`. -/
def TNode.text? : TNode → Option String
  | .mk _ _ _ tx _ => tx

/-- `node.get("marks", [])`. -/
def TNode.marks? : TNode → Option (List Mark)
  | .mk _ _ _ _ m => m

namespace Parser

/-! ## src/backend/parser/docx_parser.py — data model -/

/-- `TextRun`: a run of text with formatting. -/
structure TextRun where
  text : String
  bold : Bool := false
  italic : Bool := false
deriving DecidableEq

/-- `Paragraph`: a paragraph containing text runs.  `level` is the heading
level (`0` = not a heading); the source stores a Python `int` obtained from
`int(...)`, hence `Int`. -/
structure Paragraph where
  runs : List TextRun := []
  style : Option String := none
  numbering : Option String := none
  level : Int := 0
deriving DecidableEq

/-- One level entry of a numbering definition:
`{"format": num_fmt, "text": lvl_text}`. -/
structure LevelInfo where
  format : String
  text : String
deriving DecidableEq

/-- `NumberingTracker` state: `counters` maps numId to its ten per-level
counters, `num_to_abstract` maps numId to abstractNumId, and
`numbering_formats` maps abstractNumId to its per-level format entries
(`_extract_numbering_formats` output). -/
structure NumberingTracker where
  counters : List (String × List Nat) := []
  num_to_abstract : List (String × String) := []
  numbering_formats : List (String × List (Nat × LevelInfo)) := []
deriving DecidableEq

/-- Lookup of a level inside an abstract definition,
`formats[abstract_id].get(ilvl, {})` combined with the two `.get` defaults. -/
def level_lookup (levels : List (Nat × LevelInfo)) (ilvl : Nat) : Option LevelInfo :=
  match levels with
  | [] => none
  | (i, info) :: t => if ilvl = i then some info else level_lookup t ilvl

/-- The greedy value/numeral table of `_to_roman`. -/
def roman_table : List (Nat × String) :=
  [(1000, "M"), (900, "CM"), (500, "D"), (400, "CD"), (100, "C"), (90, "XC"),
   (50, "L"), (40, "XL"), (10, "X"), (9, "IX"), (5, "V"), (4, "IV"), (1, "I")]

/-- The greedy loop of `_to_roman`: `while n >= value: result += numeral;
n -= value` appends each numeral `n / value` times and continues with
`n % value`. -/
def roman_go : List (Nat × String) → Nat → String
  | [], _ => ""
  | (v, s) :: rest, n => String.join (List.replicate (n / v) s) ++ roman_go rest (n % v)

/-- `NumberingTracker._to_roman`: `if n <= 0: return str(n)` (counters are
naturals, so only `n = 0` arises there), else the greedy subtractive loop. -/
def to_roman (n : Nat) : String :=
  if n = 0 then toString n else roman_go roman_table n

/-- `NumberingTracker._format_number` (the `"â€¢"` in the checked-in file is
the UTF-8 bullet glyph read back under the wrong encoding). -/
def format_number (n : Nat) (fmt : String) : String :=
  if fmt = "decimal" then toString n
  else if fmt = "lowerLetter" then
    if 1 ≤ n ∧ n ≤ 26 then String.singleton (Char.ofNat (97 + n - 1)) else toString n
  else if fmt = "upperLetter" then
    if 1 ≤ n ∧ n ≤ 26 then String.singleton (Char.ofNat (65 + n - 1)) else toString n
  else if fmt = "lowerRoman" then py_lower (to_roman n)
  else if fmt = "upperRoman" then to_roman n
  else if fmt = "bullet" then "•"
  else toString n

/-- `for i in range(k, 10): l[i] = 0` on a counters list of length 10:
zeroes every index `≥ k`. -/
def zero_from : List Nat → Nat → List Nat
  | [], _ => []
  | _ :: t, 0 => 0 :: zero_from t 0
  | h :: t, k + 1 => h :: zero_from t k

/-- `if num_id not in self.counters: self.counters[num_id] = [0] * 10`
(the lazy initialisation at the top of `get_number`). -/
def counters_init (self : NumberingTracker) (num_id : String) :
    List (String × List Nat) :=
  if (alookup num_id self.counters).isNone then
    dict_insert num_id (List.replicate 10 0) self.counters
  else self.counters

/-- `self.counters[num_id][ilvl] += 1` followed by
`for i in range(ilvl + 1, 10): self.counters[num_id][i] = 0` on one
length-10 counters list. -/
def bump (l : List Nat) (ilvl : Nat) : List Nat :=
  zero_from (l.set ilvl (l.getD ilvl 0 + 1)) (ilvl + 1)

/-- The format-info lookup of `get_number`: `abstract_id` must be truthy and
registered, otherwise format `"decimal"` with level text `"%1."`. -/
def lookup_info (self : NumberingTracker) (num_id : String) (ilvl : Nat) :
    LevelInfo :=
  match alookup num_id self.num_to_abstract with
  | some abstract_id =>
    if abstract_id ≠ "" then
      match alookup abstract_id self.numbering_formats with
      | some levels => (level_lookup levels ilvl).getD ⟨"decimal", "%1."⟩
      | none => ⟨"decimal", "%1."⟩
    else ⟨"decimal", "%1."⟩
  | none => ⟨"decimal", "%1."⟩

/-- The label-building loop of `get_number`: for `i in range(ilvl + 1)`
replace `f"%{i+1}"` in the level text by the formatted counter of level `i`
(the current level uses the looked-up format, ancestors use decimal),
reading the already-updated counters list `l'`. -/
def build_label (l' : List Nat) (ilvl : Nat) (info : LevelInfo) : String :=
  (List.range (ilvl + 1)).foldl
    (fun res i =>
      py_replace res ("%" ++ toString (i + 1))
        (format_number (l'.getD i 0) (if i = ilvl then info.format else "decimal")))
    info.text

/-- `NumberingTracker.get_number`.  The lazy initialisation guarantees the
looked-up counters list is present (`getD []` is unreachable); counters lists
always have length 10 (created as `[0] * 10` and updated pointwise), and an
index outside the list would raise `IndexError` in the source, modelled as
`none`. -/
def get_number (self : NumberingTracker) (num_id : String) (ilvl : Nat) :
    Option (String × NumberingTracker) :=
  let counters0 := counters_init self num_id
  let l := (alookup num_id counters0).getD []
  if ilvl < 10 ∧ l.length = 10 then
    let l' := bump l ilvl
    some (build_label l' ilvl (lookup_info self num_id ilvl),
      { self with counters := dict_insert num_id l' counters0 })
  else none

/-! ## Raw paragraph input (what `parse_paragraph` reads off python-docx) -/

/-- One run element: `run.text`, `run.bold`, `run.italic` (tri-state in
python-docx, `None`/`True`/`False`). -/
structure RawRun where
  text : String
  bold : Option Bool := none
  italic : Option Bool := none
deriving DecidableEq

/-- A `w:numPr` element with its optional `w:ilvl` and `w:numId` children
(the level is the non-negative XML index `int(w:val)`). -/
structure NumPr where
  ilvl : Option Nat := none
  numId : Option String := none
deriving DecidableEq

/-- A paragraph element: runs, the style name (`para.style.name if para.style
else ""` collapses to an optional string here) and the optional `w:numPr`
found under `pPr` (absent `pPr` and absent `numPr` coincide in this model). -/
structure RawParagraph where
  runs : List RawRun := []
  style : Option String := none
  numPr : Option NumPr := none
deriving DecidableEq

/-- `parse_paragraph` (the numbering tracker is always supplied on the
`parse_docx` path embedded here).  Returns `none` exactly where the source
would propagate an exception out of `get_number`. -/
def parse_paragraph (para : RawParagraph) (tracker : NumberingTracker) :
    Option (Paragraph × NumberingTracker) :=
  let runs := (para.runs.filter (fun r => r.text ≠ "")).map
    (fun r => TextRun.mk r.text (r.bold.getD false) (r.italic.getD false))
  let style_name := para.style.getD ""
  let level : Int :=
    if py_startswith style_name "Heading" then
      (py_int? (py_replace style_name "Heading " "")).getD 0
    else 0
  match para.numPr with
  | some np =>
    match np.ilvl, np.numId with
    | some ilvl, some num_id =>
      if num_id ≠ "0" then
        match get_number tracker num_id ilvl with
        | some (lbl, tracker') =>
          some (⟨runs, some style_name, some lbl, level⟩, tracker')
        | none => none
      else some (⟨runs, some style_name, none, level⟩, tracker)
    | _, _ => some (⟨runs, some style_name, none, level⟩, tracker)
  | none => some (⟨runs, some style_name, none, level⟩, tracker)

/-- Driver for the numbering theorems: issue one `get_number` call per entry
of `levels`, in order, for a fixed list-id (one call per numbered paragraph,
in document order). -/
def run_levels (num_id : String) : NumberingTracker → List Nat →
    Option (List String × NumberingTracker)
  | t, [] => some ([], t)
  | t, l :: rest =>
    match get_number t num_id l with
    | some (lbl, t') =>
      match run_levels num_id t' rest with
      | some (ls, t'') => some (lbl :: ls, t'')
      | none => none
    | none => none

/-! ## Tables (`parse_table`) -/

/-! Raw table input as read from python-docx: a table holds rows, a row holds
cells, and a cell holds paragraphs (`cell.paragraphs`) and nested tables
(`cell.tables`). -/
mutual
inductive RawTable where
  | mk (rows : List RawRow)
inductive RawRow where
  | mk (cells : List RawCell)
inductive RawCell where
  | mk (paragraphs : List RawParagraph) (tables : List RawTable)
end

/-! Parsed block content of a table cell (`Paragraph` or nested `Table`). -/
mutual
inductive PBlock where
  | para (p : Paragraph)
  | table (t : PTable)
inductive PTable where
  | mk (id : String) (rows : List PRow)
inductive PRow where
  | mk (cells : List PCell)
inductive PCell where
  | mk (content : List PBlock)
end

/-- `t.rows`. -/
def PTable.rows : PTable → List PRow
  | .mk _ rows => rows

/-- `r.cells`. -/
def PRow.cells : PRow → List PCell
  | .mk cells => cells

/-- `c.content`. -/
def PCell.content : PCell → List PBlock
  | .mk content => content

/-- Parse-pass state: the numbering tracker plus a fresh-id source modelling
`uuid.uuid4()` (which yields a fresh identifier per `Table()` construction). -/
structure ParseSt where
  tracker : NumberingTracker
  next_id : Nat := 0

/-! `parse_table` and the loops inside it.  A fresh table id is drawn when the
`Table()` dataclass is constructed, before its rows are parsed; cell content
collects the non-empty parsed paragraphs, then the nested tables, and a cell
that parsed to zero content is backfilled with one empty paragraph
(`Paragraph(runs=[TextRun(text="")])`). -/
mutual

def parse_table : RawTable → ParseSt → Option (PTable × ParseSt)
  | .mk rows, st =>
    let id := "uuid-" ++ toString st.next_id
    let st1 : ParseSt := { st with next_id := st.next_id + 1 }
    match parse_rows rows st1 with
    | some (rs, st') => some (⟨id, rs⟩, st')
    | none => none

def parse_rows : List RawRow → ParseSt → Option (List PRow × ParseSt)
  | [], st => some ([], st)
  | r :: rest, st =>
    match parse_row r st with
    | some (pr, st') =>
      match parse_rows rest st' with
      | some (prs, st'') => some (pr :: prs, st'')
      | none => none
    | none => none

def parse_row : RawRow → ParseSt → Option (PRow × ParseSt)
  | .mk cells, st =>
    match parse_cells cells st with
    | some (pcs, st') => some (⟨pcs⟩, st')
    | none => none

def parse_cells : List RawCell → ParseSt → Option (List PCell × ParseSt)
  | [], st => some ([], st)
  | c :: rest, st =>
    match parse_cell c st with
    | some (pc, st') =>
      match parse_cells rest st' with
      | some (pcs, st'') => some (pc :: pcs, st'')
      | none => none
    | none => none

def parse_cell : RawCell → ParseSt → Option (PCell × ParseSt)
  | .mk paragraphs tables, st =>
    match parse_cell_paras paragraphs st with
    | some (bs, st') =>
      match parse_cell_tables tables st' with
      | some (tbs, st'') =>
        let content := bs ++ tbs
        let content :=
          if content.isEmpty then [PBlock.para ⟨[⟨"", false, false⟩], none, none, 0⟩]
          else content
        some (⟨content⟩, st'')
      | none => none
    | none => none

def parse_cell_paras : List RawParagraph → ParseSt → Option (List PBlock × ParseSt)
  | [], st => some ([], st)
  | p :: ps, st =>
    match parse_paragraph p st.tracker with
    | some (pp, tr') =>
      match parse_cell_paras ps { st with tracker := tr' } with
      | some (bs, st'') =>
        some ((if pp.runs.isEmpty then bs else PBlock.para pp :: bs), st'')
      | none => none
    | none => none

def parse_cell_tables : List RawTable → ParseSt → Option (List PBlock × ParseSt)
  | [], st => some ([], st)
  | t :: ts, st =>
    match parse_table t st with
    | some (pt, st') =>
      match parse_cell_tables ts st' with
      | some (bs, st'') => some (PBlock.table pt :: bs, st'')
      | none => none
    | none => none

end

end Parser

namespace Tiptap

/-! ## src/backend/parser/tiptap_converter.py -/

open Parser

/-- `text_run_to_tiptap`: a text node whose `marks` key is present only when
at least one mark was collected. -/
def text_run_to_tiptap (run : TextRun) : TNode :=
  let marks : List Mark :=
    (if run.bold then [⟨"bold", []⟩] else []) ++ (if run.italic then [⟨"italic", []⟩] else [])
  .mk "text" none none (some run.text) (if marks.isEmpty then none else some marks)

/-- `paragraph_to_tiptap`: runs with non-empty text become text nodes; a
truthy numbering label is prepended as a plain text node `f"{numbering} "`
only when the content is non-empty; `level > 0` yields a heading with the
level clamped by `min(para.level, 6)`. -/
def paragraph_to_tiptap (para : Paragraph) : TNode :=
  let content := (para.runs.filter (fun r => r.text ≠ "")).map text_run_to_tiptap
  let content :=
    match para.numbering with
    | some lbl =>
      if lbl ≠ "" ∧ ¬content.isEmpty then
        TNode.mk "text" none none (some (lbl ++ " ")) none :: content
      else content
    | none => content
  if 0 < para.level then
    .mk "heading" (some { level := some (min para.level 6) }) (some content) none none
  else
    .mk "paragraph" none (some content) none none

/-- The placeholder paragraph emitted for a nested table inside a cell. -/
def nested_table_placeholder : TNode :=
  .mk "paragraph" none (some [.mk "text" none none (some "[Nested table content]") none]) none none

/-- The cell-content loop of `table_to_tiptap` (parsed cells hold only
`Paragraph` and `Table` blocks; the dict branch is unreachable from
`parse_docx` output). -/
def cell_to_nodes (c : PCell) : List TNode :=
  c.content.map fun
    | .para p => paragraph_to_tiptap p
    | .table _ => nested_table_placeholder

/-- One projected cell of `table_to_tiptap`: empty converted content is
replaced by `[{"type": "paragraph"}]`, and the first row uses `tableHeader`. -/
def cell_to_tiptap (row_idx : Nat) (c : PCell) : TNode :=
  let cc := cell_to_nodes c
  let cc := if cc.isEmpty then [TNode.mk "paragraph" none none none none] else cc
  .mk (if row_idx = 0 then "tableHeader" else "tableCell") none (some cc) none none

/-- The row loop of `table_to_tiptap` (`enumerate(table.rows)`). -/
def rows_to_tiptap : Nat → List PRow → List TNode
  | _, [] => []
  | i, r :: rest =>
    TNode.mk "tableRow" none (some (r.cells.map (cell_to_tiptap i))) none none
      :: rows_to_tiptap (i + 1) rest

/-- `table_to_tiptap`. -/
def table_to_tiptap (t : PTable) : TNode :=
  .mk "table" (some { id := some t.1 }) (some (rows_to_tiptap 0 t.rows)) none none

/-- The closed kind of elements `parse_docx` produces (only `Paragraph` and
`Table` are ever constructed on the parse path; the `Section` and dict
branches of `to_tiptap` are exercised by no caller in the sources). -/
inductive Element where
  | para (p : Paragraph)
  | table (t : PTable)

/-- `to_tiptap`: one node per element, and `[{"type": "paragraph"}]` when the
collected content is empty. -/
def to_tiptap (elements : List Element) : TNode :=
  let content := elements.map fun
    | .para p => paragraph_to_tiptap p
    | .table t => table_to_tiptap t
  let content := if content.isEmpty then [TNode.mk "paragraph" none none none none] else content
  .mk "doc" none (some content) none none

end Tiptap

namespace Exporter

/-! ## src/backend/parser/docx_exporter.py -/

/-- A python-docx run: tri-state `bold` / `italic` flags, `None` on a freshly
added run. -/
structure Run where
  text : String
  bold : Option Bool := none
  italic : Option Bool := none
deriving DecidableEq

/-- `apply_marks`: bold and italic marks set the corresponding flag; marks of
any other type (insertion, deletion, comment, …) fall through the
`if`/`elif` chain and leave the run untouched. -/
def apply_marks (run : Run) (marks : List Mark) : Run :=
  marks.foldl
    (fun r m =>
      if m.type = "bold" then { r with bold := some true }
      else if m.type = "italic" then { r with italic := some true }
      else r)
    run

/-- `add_text_run` on a paragraph modelled as its list of runs: empty text
adds nothing, otherwise a fresh run (`bold`/`italic` still `None`) is
appended and the marks are applied to it. -/
def add_text_run (para : List Run) (text_node : TNode) : List Run :=
  let text := text_node.text?.getD ""
  if text = "" then para
  else para ++ [apply_marks ⟨text, none, none⟩ (text_node.marks?.getD [])]

end Exporter

end Dedit

namespace Dedit

/-! ## Claim theorems -/

section MarkLemmas

open Exporter

theorem apply_marks_nil (r : Run) : apply_marks r [] = r := rfl

theorem apply_marks_cons (r : Run) (m : Mark) (ms : List Mark) :
    apply_marks r (m :: ms) =
      apply_marks
        (if m.type = "bold" then { r with bold := some true }
         else if m.type = "italic" then { r with italic := some true }
         else r) ms := rfl

/-- The marks the exporter deliberately ignores. -/
def export_inert (m : Mark) : Bool :=
  m.type == "insertion" || m.type == "deletion" || m.type == "comment"

theorem apply_marks_filter_inert (ms : List Mark) (r : Run) :
    apply_marks r (ms.filter (fun m => !export_inert m)) = apply_marks r ms := by
  induction ms generalizing r with
  | nil => rfl
  | cons m ms ih =>
    by_cases h : export_inert m = true
    · simp only [List.filter_cons, h, Bool.not_true, Bool.false_eq_true, if_false]
      rw [apply_marks_cons]
      have h3 : m.type = "insertion" ∨ m.type = "deletion" ∨ m.type = "comment" := by
        have := h
        simp only [export_inert, Bool.or_eq_true, beq_iff_eq] at this
        tauto
      have hstep : (if m.type = "bold" then { r with bold := some true }
          else if m.type = "italic" then { r with italic := some true } else r) = r := by
        rcases h3 with h3 | h3 | h3 <;> simp [h3]
      rw [hstep]
      exact ih r
    · have hf : export_inert m = false := by revert h; cases export_inert m <;> simp
      simp only [List.filter_cons, hf, Bool.not_false, if_true]
      rw [apply_marks_cons, apply_marks_cons]
      exact ih _

theorem apply_marks_text (ms : List Mark) (r : Run) :
    (apply_marks r ms).text = r.text := by
  induction ms generalizing r with
  | nil => rfl
  | cons m ms ih =>
    rw [apply_marks_cons]
    by_cases h1 : m.type = "bold" <;> by_cases h2 : m.type = "italic" <;>
      simp [h1, h2, ih]

theorem apply_marks_bold (ms : List Mark) (r : Run) :
    (apply_marks r ms).bold =
      if ms.any (fun m => m.type == "bold") then some true else r.bold := by
  induction ms generalizing r with
  | nil => simp [apply_marks_nil]
  | cons m ms ih =>
    rw [apply_marks_cons, ih]
    by_cases h1 : m.type = "bold"
    · simp [h1]
    · by_cases h2 : m.type = "italic" <;> simp [h1, h2, List.any_cons]

theorem apply_marks_italic (ms : List Mark) (r : Run) :
    (apply_marks r ms).italic =
      if ms.any (fun m => m.type == "italic") then some true else r.italic := by
  induction ms generalizing r with
  | nil => simp [apply_marks_nil]
  | cons m ms ih =>
    rw [apply_marks_cons, ih]
    by_cases h2 : m.type = "italic"
    · by_cases h1 : m.type = "bold" <;> simp [h1, h2]
    · by_cases h1 : m.type = "bold" <;> simp [h1, h2, List.any_cons]

end MarkLemmas

/-- Claim C9.  Export mark inertness: applying a text node's marks to a run
sets the bold flag iff a bold mark is present and the italic flag iff an
italic mark is present, never touches the text, and marks of kind insertion,
deletion or comment change nothing — `add_text_run` produces the identical
exported run whether or not those marks are attached. -/
theorem c9_export_mark_inertness (r : Exporter.Run) (marks : List Mark) :
    Exporter.apply_marks r (marks.filter (fun m => !export_inert m)) =
      Exporter.apply_marks r marks ∧
    (Exporter.apply_marks r marks).text = r.text ∧
    (Exporter.apply_marks r marks).bold =
      (if marks.any (fun m => m.type == "bold") then some true else r.bold) ∧
    (Exporter.apply_marks r marks).italic =
      (if marks.any (fun m => m.type == "italic") then some true else r.italic) ∧
    ∀ (para : List Exporter.Run) (a : Option Attrs) (c : Option (List TNode))
      (tx : Option String),
      Exporter.add_text_run para (.mk "text" a c tx (some (marks.filter (fun m => !export_inert m)))) =
        Exporter.add_text_run para (.mk "text" a c tx (some marks)) := by
  refine ⟨apply_marks_filter_inert marks r, apply_marks_text marks r,
    apply_marks_bold marks r, apply_marks_italic marks r, ?_⟩
  intro para a c tx
  unfold Exporter.add_text_run
  by_cases ht : (TNode.mk "text" a c tx (some marks)).text?.getD "" = ""
  · simp [TNode.text?, TNode.marks?] at ht ⊢
    simp [ht]
  · simp [TNode.text?, TNode.marks?] at ht ⊢
    simp [ht, apply_marks_filter_inert]

/-- Claim C8.  Heading clamp: a paragraph with heading level `L ≥ 1` projects
to a heading node whose level attribute is `min L 6`; it is never dropped or
demoted to a plain paragraph. -/
theorem c8_heading_clamp (p : Parser.Paragraph) (h : 1 ≤ p.level) :
    (Tiptap.paragraph_to_tiptap p).type = "heading" ∧
    (Tiptap.paragraph_to_tiptap p).attrs? = some { level := some (min p.level 6) } := by
  have h0 : 0 < p.level := h
  unfold Tiptap.paragraph_to_tiptap
  simp only [h0, if_true, reduceIte]
  exact ⟨rfl, rfl⟩

/-- Witness for C8 at a concrete paragraph of heading level 7 (clamped to 6). -/
theorem c8_heading_clamp_witness :
    1 ≤ (⟨[], none, none, 7⟩ : Parser.Paragraph).level ∧
    ((Tiptap.paragraph_to_tiptap ⟨[], none, none, 7⟩).type = "heading" ∧
     (Tiptap.paragraph_to_tiptap ⟨[], none, none, 7⟩).attrs? =
       some { level := some (min (7 : Int) 6) }) :=
  ⟨by decide, c8_heading_clamp ⟨[], none, none, 7⟩ (by decide)⟩

/-- Claim C10.  The projection always returns a `doc` node with non-empty
top-level content; the empty element list yields exactly one paragraph node
with no text. -/
theorem c10_doc_never_contentless (els : List Tiptap.Element) :
    (Tiptap.to_tiptap els).type = "doc" ∧
    (∃ l, (Tiptap.to_tiptap els).content? = some l ∧ l ≠ []) ∧
    Tiptap.to_tiptap [] =
      .mk "doc" none (some [.mk "paragraph" none none none none]) none none := by
  refine ⟨rfl, ?_, rfl⟩
  cases els with
  | nil => exact ⟨[.mk "paragraph" none none none none], rfl, by simp⟩
  | cons e rest =>
    refine ⟨_, rfl, ?_⟩
    simp [Tiptap.to_tiptap]

/-- Claim C6, counterexample: a paragraph that carries the numbering label
`"1."` but no runs projects to a paragraph node with empty content — the
label text node appears nowhere, because the source prepends the label only
when the converted run content is non-empty. -/
theorem c6_label_dropped_counterexample :
    Tiptap.paragraph_to_tiptap ⟨[], none, some "1.", 0⟩ =
      .mk "paragraph" none (some []) none none ∧
    ∀ rest : List TNode,
      (Tiptap.paragraph_to_tiptap ⟨[], none, some "1.", 0⟩).content? ≠
        some (TNode.mk "text" none none (some "1. ") none :: rest) := by
  have e : Tiptap.paragraph_to_tiptap ⟨[], none, some "1.", 0⟩ =
      .mk "paragraph" none (some []) none none := rfl
  refine ⟨e, fun rest h => ?_⟩
  rw [e] at h
  simp [TNode.content?] at h

/-- The content list every branch of `paragraph_to_tiptap` attaches. -/
theorem paragraph_to_tiptap_content? (p : Parser.Paragraph) :
    (Tiptap.paragraph_to_tiptap p).content? =
      some (
        match p.numbering with
        | some lbl =>
          if lbl ≠ "" ∧ ¬((p.runs.filter (fun r => r.text ≠ "")).map Tiptap.text_run_to_tiptap).isEmpty then
            TNode.mk "text" none none (some (lbl ++ " ")) none ::
              (p.runs.filter (fun r => r.text ≠ "")).map Tiptap.text_run_to_tiptap
          else (p.runs.filter (fun r => r.text ≠ "")).map Tiptap.text_run_to_tiptap
        | none => (p.runs.filter (fun r => r.text ≠ "")).map Tiptap.text_run_to_tiptap) := by
  unfold Tiptap.paragraph_to_tiptap
  by_cases hl : 0 < p.level <;> simp [hl, TNode.content?]

/-- Claim C6 as amended.  For a paragraph with a non-empty numbering label
and at least one run of non-empty text, the projected node content begins
with one plain text node (no marks key) holding the label followed by a
single space, before the text nodes of the paragraph runs. -/
theorem c6_label_prepended (p : Parser.Paragraph) (lbl : String)
    (hn : p.numbering = some lbl) (hlbl : lbl ≠ "")
    (hruns : p.runs.filter (fun r => r.text ≠ "") ≠ []) :
    (Tiptap.paragraph_to_tiptap p).content? =
      some (TNode.mk "text" none none (some (lbl ++ " ")) none ::
        (p.runs.filter (fun r => r.text ≠ "")).map Tiptap.text_run_to_tiptap) := by
  have hne : ¬(((p.runs.filter (fun r => r.text ≠ "")).map Tiptap.text_run_to_tiptap).isEmpty = true) := by
    cases hF : p.runs.filter (fun r => r.text ≠ "") with
    | nil => exact absurd hF hruns
    | cons a t => simp
  rw [paragraph_to_tiptap_content? p]
  simp only [hn]
  rw [if_pos (⟨hlbl, hne⟩ :
    lbl ≠ "" ∧ ¬(((p.runs.filter (fun r => r.text ≠ "")).map Tiptap.text_run_to_tiptap).isEmpty = true))]

/-- Witness for the amended C6 at a concrete numbered paragraph with one
run. -/
theorem c6_label_prepended_witness :
    (⟨[⟨"x", false, false⟩], none, some "1.", 0⟩ : Parser.Paragraph).numbering = some "1." ∧
    ("1." : String) ≠ "" ∧
    (⟨[⟨"x", false, false⟩], none, some "1.", 0⟩ : Parser.Paragraph).runs.filter
      (fun r => r.text ≠ "") ≠ [] ∧
    (Tiptap.paragraph_to_tiptap ⟨[⟨"x", false, false⟩], none, some "1.", 0⟩).content? =
      some (TNode.mk "text" none none (some ("1." ++ " ")) none ::
        ((⟨[⟨"x", false, false⟩], none, some "1.", 0⟩ : Parser.Paragraph).runs.filter
          (fun r => r.text ≠ "")).map Tiptap.text_run_to_tiptap) :=
  ⟨rfl, by decide, by decide,
    c6_label_prepended ⟨[⟨"x", false, false⟩], none, some "1.", 0⟩ "1." rfl (by decide) (by decide)⟩

section CellLemmas

open Parser

theorem parse_paragraph_runs (p : RawParagraph) (tr : NumberingTracker)
    (pp : Paragraph) (tr' : NumberingTracker)
    (h : parse_paragraph p tr = some (pp, tr')) :
    pp.runs = (p.runs.filter (fun r => r.text ≠ "")).map
      (fun r => ⟨r.text, r.bold.getD false, r.italic.getD false⟩) := by
  simp only [parse_paragraph] at h
  repeat split at h
  all_goals
    first
      | exact Option.noConfusion h
      | (simp only [Option.some.injEq, Prod.mk.injEq] at h
         rw [← h.1])

theorem parse_cell_paras_all_empty (paras : List RawParagraph) (st : ParseSt)
    (bs : List PBlock) (st' : ParseSt)
    (h : parse_cell_paras paras st = some (bs, st'))
    (he : ∀ p ∈ paras, ∀ r ∈ p.runs, r.text = "") : bs = [] := by
  induction paras generalizing st bs st' with
  | nil =>
    simp only [parse_cell_paras, Option.some.injEq, Prod.mk.injEq] at h
    exact h.1.symm
  | cons p ps ih =>
    simp only [parse_cell_paras] at h
    split at h
    case h_2 => exact Option.noConfusion h
    case h_1 pp tr' hp =>
      split at h
      case h_2 => exact Option.noConfusion h
      case h_1 bs' st'' hrec =>
        simp only [Option.some.injEq, Prod.mk.injEq] at h
        have hfil : p.runs.filter (fun r => r.text ≠ "") = [] := by
          apply List.filter_eq_nil_iff.mpr
          intro r hr
          simpa using he p (List.mem_cons_self _ _) r hr
        have hruns : pp.runs.isEmpty = true := by
          rw [parse_paragraph_runs p st.tracker pp tr' hp, hfil]
          rfl
        have hbs' : bs' = [] :=
          ih _ _ _ hrec (fun q hq r hr => he q (List.mem_cons_of_mem _ hq) r hr)
        rw [← h.1, hruns, hbs']
        simp

theorem parse_cell_tables_nil (st : ParseSt) :
    parse_cell_tables [] st = some ([], st) := rfl

theorem parse_cell_empty (paras : List RawParagraph) (st : ParseSt)
    (pc : PCell) (st' : ParseSt)
    (h : parse_cell (.mk paras []) st = some (pc, st'))
    (he : ∀ p ∈ paras, ∀ r ∈ p.runs, r.text = "") :
    pc = ⟨[.para ⟨[⟨"", false, false⟩], none, none, 0⟩]⟩ := by
  simp only [parse_cell] at h
  split at h
  case h_2 => exact Option.noConfusion h
  case h_1 bs st₁ hp =>
    rw [parse_cell_tables_nil] at h
    have hbs : bs = [] := parse_cell_paras_all_empty paras st bs st₁ hp he
    rw [hbs] at h
    simp only [List.nil_append, List.isEmpty_nil, if_true, Option.some.injEq,
      Prod.mk.injEq] at h
    exact h.1.symm

end CellLemmas

/-- Claim C7.  Empty-cell invariant: a table cell whose parsed content is
empty (every run of every paragraph has empty text, and no nested tables)
projects to exactly one empty-paragraph node; and every projected table cell
node of a projected table has non-empty content. -/
theorem c7_empty_cell_invariant :
    (∀ (paras : List Parser.RawParagraph) (st : Parser.ParseSt)
       (pc : Parser.PCell) (st' : Parser.ParseSt),
      Parser.parse_cell (.mk paras []) st = some (pc, st') →
      (∀ p ∈ paras, ∀ r ∈ p.runs, r.text = "") →
      ∀ i, Tiptap.cell_to_tiptap i pc =
        .mk (if i = 0 then "tableHeader" else "tableCell") none
          (some [.mk "paragraph" none (some []) none none]) none none) ∧
    (∀ (pc : Parser.PCell) (i : Nat), (Tiptap.cell_to_tiptap i pc).contentD ≠ []) ∧
    (∀ (t : Parser.PTable), ∀ rn ∈ (Tiptap.table_to_tiptap t).contentD,
      ∀ cn ∈ rn.contentD, cn.contentD ≠ []) := by
  have hcell : ∀ (pc : Parser.PCell) (i : Nat),
      (Tiptap.cell_to_tiptap i pc).contentD ≠ [] := by
    intro pc i
    unfold Tiptap.cell_to_tiptap
    cases hE : (Tiptap.cell_to_nodes pc).isEmpty with
    | true => simp [hE, TNode.contentD, TNode.content?]
    | false =>
      simp only [hE, TNode.contentD, TNode.content?, if_false, Bool.false_eq_true,
        Option.getD_some]
      intro hnil
      rw [hnil] at hE
      simp at hE
  refine ⟨?_, hcell, ?_⟩
  · intro paras st pc st' h he i
    rw [parse_cell_empty paras st pc st' h he]
    rfl
  · intro t rn hrn cn hcn
    unfold Tiptap.table_to_tiptap at hrn
    simp only [TNode.contentD, TNode.content?, Option.getD_some] at hrn
    have hshape : ∀ (rows : List Parser.PRow) (i : Nat) (x : TNode),
        x ∈ Tiptap.rows_to_tiptap i rows →
        ∃ j cells, x = TNode.mk "tableRow" none
          (some (List.map (Tiptap.cell_to_tiptap j) cells)) none none := by
      intro rows
      induction rows with
      | nil => intro i x hx; simp [Tiptap.rows_to_tiptap] at hx
      | cons r rest ih =>
        intro i x hx
        simp only [Tiptap.rows_to_tiptap] at hx
        rcases List.mem_cons.mp hx with hx | hx
        · exact ⟨i, r.cells, hx⟩
        · exact ih (i + 1) x hx
    obtain ⟨j, cells, rfl⟩ := hshape t.rows 0 rn hrn
    simp only [TNode.contentD, TNode.content?, Option.getD_some] at hcn
    obtain ⟨c, _, rfl⟩ := List.mem_map.mp hcn
    exact hcell c j

/-- Witness for C7: a cell holding one paragraph with a single empty run
parses to the backfilled empty paragraph and projects to exactly one
empty-paragraph node. -/
theorem c7_empty_cell_invariant_witness :
    Parser.parse_cell (.mk [⟨[⟨"", none, none⟩], none, none⟩] []) ⟨⟨[], [], []⟩, 0⟩ =
      some (⟨[.para ⟨[⟨"", false, false⟩], none, none, 0⟩]⟩, ⟨⟨[], [], []⟩, 0⟩) ∧
    Tiptap.cell_to_tiptap 1 ⟨[.para ⟨[⟨"", false, false⟩], none, none, 0⟩]⟩ =
      .mk (if 1 = 0 then "tableHeader" else "tableCell") none
        (some [.mk "paragraph" none (some []) none none]) none none :=
  ⟨rfl, c7_empty_cell_invariant.1 [⟨[⟨"", none, none⟩], none, none⟩] ⟨⟨[], [], []⟩, 0⟩
    ⟨[.para ⟨[⟨"", false, false⟩], none, none, 0⟩]⟩ ⟨⟨[], [], []⟩, 0⟩ rfl (by decide) 1⟩

section NumberingLemmas

open Parser

theorem zero_from_length (l : List Nat) (k : Nat) :
    (zero_from l k).length = l.length := by
  induction l generalizing k with
  | nil => rfl
  | cons h t ih =>
    cases k with
    | zero => simp [zero_from, ih]
    | succ k => simp [zero_from, ih]

theorem zero_from_getD (l : List Nat) (k i : Nat) :
    (zero_from l k).getD i 0 = if i < k then l.getD i 0 else 0 := by
  induction l generalizing k i with
  | nil => simp [zero_from]
  | cons h t ih =>
    cases k with
    | zero =>
      cases i with
      | zero => simp [zero_from]
      | succ i => simpa [zero_from] using ih 0 i
    | succ k =>
      cases i with
      | zero => simp [zero_from]
      | succ i => simpa [zero_from, Nat.succ_lt_succ_iff] using ih k i

theorem zero_from_replicate (n k : Nat) :
    zero_from (List.replicate n 0) k = List.replicate n 0 := by
  induction n generalizing k with
  | zero => rfl
  | succ n ih =>
    cases k with
    | zero => simp [List.replicate_succ, zero_from, ih]
    | succ k => simp [List.replicate_succ, zero_from, ih]

theorem getD_set_self (l : List Nat) (j v : Nat) (hj : j < l.length) :
    (l.set j v).getD j 0 = v := by
  induction l generalizing j with
  | nil => simp at hj
  | cons h t ih =>
    cases j with
    | zero => simp [List.set]
    | succ j => simpa [List.set] using ih j (by simpa using hj)

theorem getD_set_ne (l : List Nat) (j v i : Nat) (hij : i ≠ j) :
    (l.set j v).getD i 0 = l.getD i 0 := by
  induction l generalizing i j with
  | nil => simp
  | cons h t ih =>
    cases j with
    | zero =>
      cases i with
      | zero => exact absurd rfl hij
      | succ i => simp [List.set]
    | succ j =>
      cases i with
      | zero => simp [List.set]
      | succ i => simpa [List.set] using ih j i (fun hh => hij (by rw [hh]))

theorem bump_length (l : List Nat) (L : Nat) : (bump l L).length = l.length := by
  unfold bump
  rw [zero_from_length, List.length_set]

theorem bump_getD_self (l : List Nat) (L : Nat) (h : L < l.length) :
    (bump l L).getD L 0 = l.getD L 0 + 1 := by
  unfold bump
  rw [zero_from_getD, if_pos (Nat.lt_succ_self L), getD_set_self l L _ h]

theorem bump_getD_deeper (l : List Nat) (L i : Nat) (h : L < i) :
    (bump l L).getD i 0 = 0 := by
  unfold bump
  rw [zero_from_getD, if_neg (by omega)]

theorem bump_getD_shallower (l : List Nat) (L i : Nat) (h : i < L) :
    (bump l L).getD i 0 = l.getD i 0 := by
  unfold bump
  rw [zero_from_getD, if_pos (by omega), getD_set_ne l L _ i (by omega)]

theorem counters_init_lookup (t : NumberingTracker) (num_id : String) :
    alookup num_id (counters_init t num_id) =
      some ((alookup num_id t.counters).getD (List.replicate 10 0)) := by
  cases h : alookup num_id t.counters with
  | none => simp [counters_init, h, alookup_dict_insert_self]
  | some l => simp [counters_init, h]

theorem counters_init_lookup_ne (t : NumberingTracker) (num_id id' : String)
    (h : id' ≠ num_id) :
    alookup id' (counters_init t num_id) = alookup id' t.counters := by
  cases h0 : alookup num_id t.counters with
  | none => simp [counters_init, h0, alookup_dict_insert_ne _ _ _ _ h]
  | some l => simp [counters_init, h0]

/-- Unfolding of `get_number` when the level index is in range and the
(initialised) counters list has length 10. -/
theorem get_number_eq (t : NumberingTracker) (num_id : String) (ilvl : Nat)
    (hL : ilvl < 10)
    (hlen : ((alookup num_id t.counters).getD (List.replicate 10 0)).length = 10) :
    get_number t num_id ilvl =
      some (build_label
          (bump ((alookup num_id t.counters).getD (List.replicate 10 0)) ilvl) ilvl
          (lookup_info t num_id ilvl),
        { t with counters := (dict_insert num_id
            (bump ((alookup num_id t.counters).getD (List.replicate 10 0)) ilvl)
            (counters_init t num_id)) }) := by
  unfold get_number
  dsimp only
  rw [counters_init_lookup]
  simp only [Option.getD_some]
  rw [if_pos ⟨hL, hlen⟩]

end NumberingLemmas

/-- Claim C2, counterexample: the list-id `"5"` has no registered numbering
format (empty numbering definitions), yet `get_number` produces the decimal
fallback label `"1."` and its counters move from absent to
`[1, 0, …, 0]`. -/
theorem c2_unregistered_format_counterexample :
    Parser.get_number ⟨[], [], []⟩ "5" 0 =
      some ("1.", ⟨[("5", [1, 0, 0, 0, 0, 0, 0, 0, 0, 0])], [], []⟩) ∧
    (⟨[], [], []⟩ : Parser.NumberingTracker).counters ≠
      [("5", [1, 0, 0, 0, 0, 0, 0, 0, 0, 0])] := by
  constructor
  · rfl
  · decide

/-- Claim C2 as amended.  Only the sentinel path is inert: a numbering
reference with `numId = "0"` produces no label and leaves the tracker
untouched, while a list-id with no registered format still produces a label
(decimal fallback) and advances its counters. -/
theorem c2_sentinel_inert_fallback_counts (p : Parser.RawParagraph)
    (tr : Parser.NumberingTracker) (np : Parser.NumPr) (ilvl : Nat)
    (hnp : p.numPr = some np) (hi : np.ilvl = some ilvl)
    (hid : np.numId = some "0") :
    (∃ pp, Parser.parse_paragraph p tr = some (pp, tr) ∧ pp.numbering = none) ∧
    (∀ (t : Parser.NumberingTracker) (id : String) (L : Nat),
      L < 10 →
      (∀ l, alookup id t.counters = some l → l.length = 10) →
      alookup id t.num_to_abstract = none →
      ∃ lbl t', Parser.get_number t id L = some (lbl, t') ∧
        alookup id t'.counters ≠ alookup id t.counters) := by
  constructor
  · simp only [Parser.parse_paragraph, hnp, hi, hid, ne_eq, not_true_eq_false,
      if_false, reduceIte]
    exact ⟨_, rfl, rfl⟩
  · intro t id L hL hwf _
    have hlen : ((alookup id t.counters).getD (List.replicate 10 0)).length = 10 := by
      cases h0 : alookup id t.counters with
      | none => simp
      | some l => simpa using hwf l h0
    refine ⟨_, _, get_number_eq t id L hL hlen, ?_⟩
    dsimp only
    rw [alookup_dict_insert_self]
    cases h0 : alookup id t.counters with
    | none => simp
    | some l0 =>
      simp only [h0, Option.getD_some, ne_eq, Option.some.injEq]
      intro heq
      have := congrArg (fun l => l.getD L 0) heq
      simp only at this
      rw [bump_getD_self l0 L (by rw [hwf l0 h0]; exact hL)] at this
      omega

/-- Witness for the amended C2: the sentinel reference leaves a concrete
tracker untouched, and the unregistered id `"5"` still moves counters. -/
theorem c2_sentinel_inert_fallback_counts_witness :
    (∃ pp, Parser.parse_paragraph ⟨[], none, some ⟨some 0, some "0"⟩⟩ ⟨[], [], []⟩ =
        some (pp, ⟨[], [], []⟩) ∧ pp.numbering = none) ∧
    (∃ lbl t', Parser.get_number ⟨[], [], []⟩ "5" 0 = some (lbl, t') ∧
      alookup "5" t'.counters ≠
        alookup "5" (⟨[], [], []⟩ : Parser.NumberingTracker).counters) := by
  have h := c2_sentinel_inert_fallback_counts ⟨[], none, some ⟨some 0, some "0"⟩⟩
    ⟨[], [], []⟩ ⟨some 0, some "0"⟩ 0 rfl rfl rfl
  exact ⟨h.1, h.2 ⟨[], [], []⟩ "5" 0 (by decide)
    (fun l hl => Option.noConfusion hl) rfl⟩

section RunLevelsLemmas

open Parser

theorem run_levels_nil (id : String) (t : NumberingTracker) :
    run_levels id t [] = some ([], t) := rfl

theorem run_levels_cons_some (id : String) (t : NumberingTracker) (L : Nat)
    (ls : List Nat) (lbl : String) (t' : NumberingTracker) (ls' : List String)
    (t'' : NumberingTracker)
    (h1 : get_number t id L = some (lbl, t'))
    (h2 : run_levels id t' ls = some (ls', t'')) :
    run_levels id t (L :: ls) = some (lbl :: ls', t'') := by
  simp [run_levels, h1, h2]

theorem format_number_decimal (n : Nat) : format_number n "decimal" = toString n := rfl

theorem lookup_info_of (t : NumberingTracker) (id aid : String)
    (levels : List (Nat × LevelInfo)) (info : LevelInfo) (ilvl : Nat)
    (ha : alookup id t.num_to_abstract = some aid) (hne : aid ≠ "")
    (hf : alookup aid t.numbering_formats = some levels)
    (hl : level_lookup levels ilvl = some info) :
    lookup_info t id ilvl = info := by
  simp [lookup_info, ha, hne, hf, hl]

theorem build_label_level0 (l' : List Nat) (info : LevelInfo) :
    build_label l' 0 info =
      py_replace info.text "%1" (format_number (l'.getD 0 0) info.format) := rfl

/-- One `get_number` call at level 0 for a decimal binding: the counter goes
from `c` to `c + 1` and the label is the template with `%1` replaced by the
decimal rendering of `c + 1`. -/
theorem get_number_decimal_step (t : NumberingTracker) (id aid : String)
    (levels : List (Nat × LevelInfo)) (tmpl : String) (c : Nat)
    (ha : alookup id t.num_to_abstract = some aid) (hne : aid ≠ "")
    (hf : alookup aid t.numbering_formats = some levels)
    (hl : level_lookup levels 0 = some ⟨"decimal", tmpl⟩)
    (hc : (alookup id t.counters).getD (List.replicate 10 0) = c :: List.replicate 9 0) :
    get_number t id 0 = some (py_replace tmpl "%1" (toString (c + 1)),
      { t with counters := (dict_insert id ((c + 1) :: List.replicate 9 0) (counters_init t id)) }) := by
  have hlen : ((alookup id t.counters).getD (List.replicate 10 0)).length = 10 := by
    rw [hc]; simp
  have hbump : bump ((alookup id t.counters).getD (List.replicate 10 0)) 0 =
      (c + 1) :: List.replicate 9 0 := by
    rw [hc]
    unfold bump
    rw [show ((c :: List.replicate 9 0).set 0 ((c :: List.replicate 9 0).getD 0 0 + 1)) =
      (c + 1) :: List.replicate 9 0 from rfl]
    rw [show zero_from ((c + 1) :: List.replicate 9 0) (0 + 1) =
      (c + 1) :: zero_from (List.replicate 9 0) 0 from rfl]
    rw [zero_from_replicate]
  rw [get_number_eq t id 0 (by norm_num) hlen, hbump]
  have hlabel : build_label ((c + 1) :: List.replicate 9 0) 0 (lookup_info t id 0) =
      py_replace tmpl "%1" (toString (c + 1)) := by
    rw [lookup_info_of t id aid levels ⟨"decimal", tmpl⟩ 0 ha hne hf hl, build_label_level0]
    rfl
  rw [hlabel]

theorem run_levels_decimal (id aid : String) (levels : List (Nat × LevelInfo))
    (tmpl : String) (N : Nat) :
    ∀ (t : NumberingTracker) (c : Nat),
      alookup id t.num_to_abstract = some aid → aid ≠ "" →
      alookup aid t.numbering_formats = some levels →
      level_lookup levels 0 = some ⟨"decimal", tmpl⟩ →
      (alookup id t.counters).getD (List.replicate 10 0) = c :: List.replicate 9 0 →
      ∃ t', run_levels id t (List.replicate N 0) =
        some ((List.range N).map (fun k => py_replace tmpl "%1" (toString (c + k + 1))), t') := by
  induction N with
  | zero => intro t c _ _ _ _ _; exact ⟨t, rfl⟩
  | succ N ih =>
    intro t c ha hne hf hl hc
    have hstep := get_number_decimal_step t id aid levels tmpl c ha hne hf hl hc
    have hc1 : (alookup id ({ t with counters := (dict_insert id ((c + 1) :: List.replicate 9 0) (counters_init t id)) } : NumberingTracker).counters).getD (List.replicate 10 0) = (c + 1) :: List.replicate 9 0 := by
      dsimp only
      rw [alookup_dict_insert_self]
      rfl
    obtain ⟨t', hrun⟩ := ih
      { t with counters := (dict_insert id ((c + 1) :: List.replicate 9 0) (counters_init t id)) }
      (c + 1) ha hne hf hl hc1
    refine ⟨t', ?_⟩
    rw [List.replicate_succ, run_levels_cons_some id t 0 _ _ _ _ _ hstep hrun]
    have hlist : (py_replace tmpl "%1" (toString (c + 1)) ::
        List.map (fun k => py_replace tmpl "%1" (toString (c + 1 + k + 1))) (List.range N)) =
        List.map (fun k => py_replace tmpl "%1" (toString (c + k + 1))) (List.range (N + 1)) := by
      rw [List.range_succ_eq_map, List.map_cons, List.map_map]
      congr 1
      apply List.map_congr_left
      intro k _
      simp only [Function.comp_apply]
      have harith : c + 1 + k + 1 = c + (k + 1) + 1 := by omega
      rw [harith]
    rw [hlist]

end RunLevelsLemmas

/-- Claim C3, counterexample: the list-id `"7"` is bound to decimal format at
level 0 (with the default level text `"%1."`); one call returns the label
`"1."`, not `"1"` — the rendered label is the level template with `%1`
substituted, not the bare counter. -/
theorem c3_template_counterexample :
    Parser.run_levels "7" ⟨[], [("7", "a")], [("a", [(0, ⟨"decimal", "%1."⟩)])]⟩ [0] =
      some (["1."], ⟨[("7", [1, 0, 0, 0, 0, 0, 0, 0, 0, 0])], [("7", "a")],
        [("a", [(0, ⟨"decimal", "%1."⟩)])]⟩) ∧
    ("1." : String) ≠ "1" :=
  ⟨rfl, by decide⟩

/-- Claim C3 as amended.  For a fresh list-id bound to decimal format at
level 0 with level template `tmpl`, N consecutive calls at level 0 return the
labels `tmpl` with `%1` replaced by `"1"`, `"2"`, …, `"N"` in order (so
exactly `"1"`, …, `"N"` when the template is `"%1"`). -/
theorem c3_decimal_monotone (t : Parser.NumberingTracker) (id aid : String)
    (levels : List (Nat × Parser.LevelInfo)) (tmpl : String) (N : Nat)
    (hfresh : alookup id t.counters = none)
    (ha : alookup id t.num_to_abstract = some aid) (hne : aid ≠ "")
    (hf : alookup aid t.numbering_formats = some levels)
    (hl : Parser.level_lookup levels 0 = some ⟨"decimal", tmpl⟩) :
    ∃ t', Parser.run_levels id t (List.replicate N 0) =
      some ((List.range N).map (fun k => py_replace tmpl "%1" (toString (k + 1))), t') := by
  have hc : (alookup id t.counters).getD (List.replicate 10 0) =
      0 :: List.replicate 9 0 := by
    rw [hfresh]; rfl
  obtain ⟨t', h⟩ := run_levels_decimal id aid levels tmpl N t 0 ha hne hf hl hc
  refine ⟨t', ?_⟩
  rw [h]
  have hlist : (List.range N).map (fun k => py_replace tmpl "%1" (toString (0 + k + 1))) =
      (List.range N).map (fun k => py_replace tmpl "%1" (toString (k + 1))) := by
    apply List.map_congr_left
    intro k _
    have harith : 0 + k + 1 = k + 1 := by omega
    rw [harith]
  rw [hlist]

/-- Witness for the amended C3: with template exactly `"%1"`, three calls
return `"1"`, `"2"`, `"3"`. -/
theorem c3_decimal_monotone_witness :
    alookup "9" (⟨[], [("9", "b")], [("b", [(0, ⟨"decimal", "%1"⟩)])]⟩ :
      Parser.NumberingTracker).counters = none ∧
    ∃ t', Parser.run_levels "9" ⟨[], [("9", "b")], [("b", [(0, ⟨"decimal", "%1"⟩)])]⟩
      (List.replicate 3 0) = some (["1", "2", "3"], t') := by
  refine ⟨rfl, ?_⟩
  obtain ⟨t', h⟩ := c3_decimal_monotone
    ⟨[], [("9", "b")], [("b", [(0, ⟨"decimal", "%1"⟩)])]⟩ "9" "b"
    [(0, ⟨"decimal", "%1"⟩)] "%1" 3 rfl rfl (by decide) rfl rfl
  have e : (List.range 3).map (fun k => py_replace "%1" "%1" (toString (k + 1))) =
      ["1", "2", "3"] := by decide
  exact ⟨t', by rw [h, e]⟩

/-- Claim C4.  Level reset: a `get_number` call at level `L < 10` sets the
level-`L` counter to its previous value plus one, zeroes every deeper level
and keeps shallower levels; consequently visiting levels 0, 1, 0, 1 on a
fresh list-id gives counter value 1 at level 1 on both level-1 visits
(counters `[1, 1, 0, …]` then `[2, 1, 0, …]`). -/
theorem c4_level_reset :
    (∀ (t : Parser.NumberingTracker) (id : String) (L : Nat),
      L < 10 →
      (∀ l, alookup id t.counters = some l → l.length = 10) →
      ∃ lbl t', Parser.get_number t id L = some (lbl, t') ∧
        ∃ l', alookup id t'.counters = some l' ∧
          l'.getD L 0 = ((alookup id t.counters).getD (List.replicate 10 0)).getD L 0 + 1 ∧
          (∀ i, L < i → l'.getD i 0 = 0) ∧
          (∀ i, i < L → l'.getD i 0 =
            ((alookup id t.counters).getD (List.replicate 10 0)).getD i 0)) ∧
    (∀ (t : Parser.NumberingTracker) (id : String),
      alookup id t.counters = none →
      ∃ ls₂ t₂ ls₄ t₄,
        Parser.run_levels id t [0, 1] = some (ls₂, t₂) ∧
        alookup id t₂.counters = some [1, 1, 0, 0, 0, 0, 0, 0, 0, 0] ∧
        Parser.run_levels id t₂ [0, 1] = some (ls₄, t₄) ∧
        alookup id t₄.counters = some [2, 1, 0, 0, 0, 0, 0, 0, 0, 0]) := by
  constructor
  · intro t id L hL hwf
    have hlen : ((alookup id t.counters).getD (List.replicate 10 0)).length = 10 := by
      cases h0 : alookup id t.counters with
      | none => simp
      | some l => simpa using hwf l h0
    refine ⟨_, _, get_number_eq t id L hL hlen, ?_⟩
    dsimp only
    refine ⟨_, alookup_dict_insert_self _ _ _, ?_, ?_, ?_⟩
    · exact bump_getD_self _ L (by rw [hlen]; exact hL)
    · intro i hi; exact bump_getD_deeper _ L i hi
    · intro i hi; exact bump_getD_shallower _ L i hi
  · intro t id hfresh
    have k1 : (alookup id t.counters).getD (List.replicate 10 0) =
        List.replicate 10 0 := by rw [hfresh]; rfl
    have hlen1 : ((alookup id t.counters).getD (List.replicate 10 0)).length = 10 := by
      rw [k1]; simp
    have e1 := get_number_eq t id 0 (by norm_num) hlen1
    rw [k1, show Parser.bump (List.replicate 10 0) 0 = [1, 0, 0, 0, 0, 0, 0, 0, 0, 0] from by decide] at e1
    set t1 : Parser.NumberingTracker :=
      { t with counters := (dict_insert id [1, 0, 0, 0, 0, 0, 0, 0, 0, 0] (Parser.counters_init t id)) } with ht1
    have l1 : alookup id t1.counters = some [1, 0, 0, 0, 0, 0, 0, 0, 0, 0] :=
      alookup_dict_insert_self _ _ _
    have k2 : (alookup id t1.counters).getD (List.replicate 10 0) =
        [1, 0, 0, 0, 0, 0, 0, 0, 0, 0] := by rw [l1]; rfl
    have e2 := get_number_eq t1 id 1 (by norm_num) (by rw [k2]; rfl)
    rw [k2, show Parser.bump [1, 0, 0, 0, 0, 0, 0, 0, 0, 0] 1 = [1, 1, 0, 0, 0, 0, 0, 0, 0, 0] from by decide] at e2
    set t2 : Parser.NumberingTracker :=
      { t1 with counters := (dict_insert id [1, 1, 0, 0, 0, 0, 0, 0, 0, 0] (Parser.counters_init t1 id)) } with ht2
    have l2 : alookup id t2.counters = some [1, 1, 0, 0, 0, 0, 0, 0, 0, 0] :=
      alookup_dict_insert_self _ _ _
    have k3 : (alookup id t2.counters).getD (List.replicate 10 0) =
        [1, 1, 0, 0, 0, 0, 0, 0, 0, 0] := by rw [l2]; rfl
    have e3 := get_number_eq t2 id 0 (by norm_num) (by rw [k3]; rfl)
    rw [k3, show Parser.bump [1, 1, 0, 0, 0, 0, 0, 0, 0, 0] 0 = [2, 0, 0, 0, 0, 0, 0, 0, 0, 0] from by decide] at e3
    set t3 : Parser.NumberingTracker :=
      { t2 with counters := (dict_insert id [2, 0, 0, 0, 0, 0, 0, 0, 0, 0] (Parser.counters_init t2 id)) } with ht3
    have l3 : alookup id t3.counters = some [2, 0, 0, 0, 0, 0, 0, 0, 0, 0] :=
      alookup_dict_insert_self _ _ _
    have k4 : (alookup id t3.counters).getD (List.replicate 10 0) =
        [2, 0, 0, 0, 0, 0, 0, 0, 0, 0] := by rw [l3]; rfl
    have e4 := get_number_eq t3 id 1 (by norm_num) (by rw [k4]; rfl)
    rw [k4, show Parser.bump [2, 0, 0, 0, 0, 0, 0, 0, 0, 0] 1 = [2, 1, 0, 0, 0, 0, 0, 0, 0, 0] from by decide] at e4
    set t4 : Parser.NumberingTracker :=
      { t3 with counters := (dict_insert id [2, 1, 0, 0, 0, 0, 0, 0, 0, 0] (Parser.counters_init t3 id)) } with ht4
    have l4 : alookup id t4.counters = some [2, 1, 0, 0, 0, 0, 0, 0, 0, 0] :=
      alookup_dict_insert_self _ _ _
    have r1 := run_levels_cons_some id t 0 _ _ _ _ _ e1
        (run_levels_cons_some id t1 1 _ _ _ _ _ e2 (run_levels_nil id t2))
    have r2 := run_levels_cons_some id t2 0 _ _ _ _ _ e3
        (run_levels_cons_some id t3 1 _ _ _ _ _ e4 (run_levels_nil id t4))
    exact ⟨_, t2, _, t4, r1, l2, r2, l4⟩

/-- Witness for C4 on a fresh concrete tracker. -/
theorem c4_level_reset_witness :
    ((0 : Nat) < 10 ∧
     ∃ lbl t', Parser.get_number ⟨[], [], []⟩ "5" 0 = some (lbl, t') ∧
       ∃ l', alookup "5" t'.counters = some l' ∧
         l'.getD 0 0 = ((alookup "5" (⟨[], [], []⟩ : Parser.NumberingTracker).counters).getD
           (List.replicate 10 0)).getD 0 0 + 1 ∧
         (∀ i, 0 < i → l'.getD i 0 = 0) ∧
         (∀ i, i < 0 → l'.getD i 0 =
           ((alookup "5" (⟨[], [], []⟩ : Parser.NumberingTracker).counters).getD
             (List.replicate 10 0)).getD i 0)) ∧
    (∃ ls₂ t₂ ls₄ t₄,
      Parser.run_levels "5" ⟨[], [], []⟩ [0, 1] = some (ls₂, t₂) ∧
      alookup "5" t₂.counters = some [1, 1, 0, 0, 0, 0, 0, 0, 0, 0] ∧
      Parser.run_levels "5" t₂ [0, 1] = some (ls₄, t₄) ∧
      alookup "5" t₄.counters = some [2, 1, 0, 0, 0, 0, 0, 0, 0, 0]) :=
  ⟨⟨by decide, c4_level_reset.1 ⟨[], [], []⟩ "5" 0 (by decide)
      (fun l hl => Option.noConfusion hl)⟩,
   c4_level_reset.2 ⟨[], [], []⟩ "5" rfl⟩

/-- One positional digit of a Roman numeral in standard subtractive notation
(`i`/`v`/`x` are the one, five and ten symbols of the digit position). -/
def roman_digit (d : Nat) (i v x : String) : String :=
  match d with
  | 0 => "" | 1 => i | 2 => i ++ i | 3 => i ++ i ++ i | 4 => i ++ v
  | 5 => v | 6 => v ++ i | 7 => v ++ i ++ i | 8 => v ++ i ++ i ++ i | _ => i ++ x

/-- The standard subtractive-notation Roman numeral of `n`, written per the
wording of the spec (`lowerRoman/upperRoman render standard
subtractive-notation Roman numerals (no bound)`): thousands as repeated `M`,
then the hundreds, tens and units digits rendered positionally. -/
def roman_spec (n : Nat) : String :=
  String.join (List.replicate (n / 1000) "M")
    ++ roman_digit (n / 100 % 10) "C" "D" "M"
    ++ roman_digit (n / 10 % 10) "X" "L" "C"
    ++ roman_digit (n % 10) "I" "V" "X"

set_option maxHeartbeats 4000000 in
set_option maxRecDepth 10000 in
theorem roman_go_tail_spec : ∀ m < 1000,
    Parser.roman_go [(900, "CM"), (500, "D"), (400, "CD"), (100, "C"), (90, "XC"),
      (50, "L"), (40, "XL"), (10, "X"), (9, "IX"), (5, "V"), (4, "IV"), (1, "I")] m =
    roman_digit (m / 100) "C" "D" "M" ++ roman_digit (m / 10 % 10) "X" "L" "C"
      ++ roman_digit (m % 10) "I" "V" "X" := by decide

theorem str_append_assoc (a b c : String) : a ++ b ++ c = a ++ (b ++ c) := by
  cases a
  cases b
  cases c
  show String.mk _ = String.mk _
  rw [List.append_assoc]

theorem roman_go_correct (n : Nat) :
    Parser.roman_go Parser.roman_table n = roman_spec n := by
  have h1 : Parser.roman_go Parser.roman_table n =
      String.join (List.replicate (n / 1000) "M") ++
        Parser.roman_go [(900, "CM"), (500, "D"), (400, "CD"), (100, "C"), (90, "XC"),
          (50, "L"), (40, "XL"), (10, "X"), (9, "IX"), (5, "V"), (4, "IV"), (1, "I")]
          (n % 1000) := rfl
  rw [h1, roman_go_tail_spec (n % 1000) (Nat.mod_lt n (by norm_num))]
  unfold roman_spec
  have e1 : n % 1000 / 100 = n / 100 % 10 := by omega
  have e2 : n % 1000 / 10 % 10 = n / 10 % 10 := by omega
  have e3 : n % 1000 % 10 = n % 10 := by omega
  rw [e1, e2, e3, str_append_assoc, str_append_assoc, ← str_append_assoc]

/-- Claim C5.  Roman rendering: for every counter value `n ≥ 1`, the
upperRoman formatter returns the standard subtractive-notation Roman numeral
of `n` and the lowerRoman formatter its lower-case form, with no upper bound
on `n`. -/
theorem c5_roman_subtractive (n : Nat) (h : 1 ≤ n) :
    Parser.format_number n "upperRoman" = roman_spec n ∧
    Parser.format_number n "lowerRoman" = py_lower (roman_spec n) := by
  have hz : ¬(n = 0) := by omega
  have hu : Parser.format_number n "upperRoman" = Parser.to_roman n := rfl
  have hlr : Parser.format_number n "lowerRoman" = py_lower (Parser.to_roman n) := rfl
  have ht : Parser.to_roman n = Parser.roman_go Parser.roman_table n := by
    unfold Parser.to_roman
    rw [if_neg hz]
  rw [hu, hlr, ht, roman_go_correct]
  exact ⟨rfl, rfl⟩

/-- Witness for C5 at `n = 4`, together with the concrete values
`"I"`, `"II"`, `"III"`, `"IV"` for counter values 1..4. -/
theorem c5_roman_subtractive_witness :
    (1 ≤ 4 ∧ Parser.format_number 4 "upperRoman" = roman_spec 4) ∧
    (Parser.format_number 1 "upperRoman" = "I" ∧
     Parser.format_number 2 "upperRoman" = "II" ∧
     Parser.format_number 3 "upperRoman" = "III" ∧
     Parser.format_number 4 "upperRoman" = "IV") :=
  ⟨⟨by decide, (c5_roman_subtractive 4 (by decide)).1⟩,
   by decide, by decide, by decide, by decide⟩

namespace Vault

/-! ## src/docx2tiptap/src/docx2tiptap/tiptap_converter.py — the Fidelity
Vault: `TipTapConverter._extract_and_store_raw_styles` and the tail of
`TipTapConverter.convert` that appends the reserved `rawStylesStorage` node.
The restoration direction is not part of the sources (only the legacy
server-side `restore_raw_styles` in `backend/main.py` is), so it is modelled
from the spec, see `restore_raw_styles` below. -/

/-- `attrs.get("id")` under the Python truthiness test `if table_id:` —
`None` and the empty string are falsy. -/
def table_id? (a : Option Attrs) : Option String :=
  match a with
  | some aa =>
    match aa.id with
    | some s => if s = "" then none else some s
    | none => none
  | none => none

/-- The branch guard of `process_node`:
`node.get("type") == "table"` with a truthy id. -/
def guard_id (t : String) (a : Option Attrs) : Option String :=
  if t = "table" then table_id? a else none

/-- `f"table:{table_id}:tblPr"`. -/
def key_tblPr (tid : String) : String := "table:" ++ tid ++ ":tblPr"

/-- `f"table:{table_id}:tblGrid"`. -/
def key_tblGrid (tid : String) : String := "table:" ++ tid ++ ":tblGrid"

/-- `f"table:{table_id}:row:{row_idx}"`. -/
def key_row (tid : String) (i : Nat) : String :=
  "table:" ++ tid ++ ":row:" ++ toString i

/-- `f"table:{table_id}:row:{row_idx}:cell:{cell_idx}"`. -/
def key_cell (tid : String) (i j : Nat) : String :=
  "table:" ++ tid ++ ":row:" ++ toString i ++ ":cell:" ++ toString j

/-! Node size measures used for termination of the tree walks. -/
mutual
def tsize : TNode → Nat
  | .mk _ _ none _ _ => 1
  | .mk _ _ (some l) _ _ => 1 + lsize l
def lsize : List TNode → Nat
  | [] => 0
  | n :: l => tsize n + lsize l
end

theorem tsize_pos (n : TNode) : 0 < tsize n := by
  obtain ⟨t, a, c, tx, m⟩ := n
  cases c <;> simp [tsize]

/-- Cell step of the row loop: pop `rawXml` into its key and drop
`colwidth` (`cell_attrs.pop("colwidth", None)`); a cell without an attrs
dict is untouched. -/
def pop_cell (tid : String) (ri ci : Nat) : TNode → TNode × List (String × String)
  | .mk t (some ca) cc ctx cm =>
    let entries := match ca.rawXml with
      | some v => [(key_cell tid ri ci, v)]
      | none => []
    (.mk t (some { ca with rawXml := none, colwidth := none }) cc ctx cm, entries)
  | n => (n, [])

/-- `for cell_idx, cell in enumerate(row.get("content", []))`. -/
def pop_cells (tid : String) (ri : Nat) : Nat → List TNode → List TNode × List (String × String)
  | _, [] => ([], [])
  | ci, c :: cs =>
    let (c', e) := pop_cell tid ri ci c
    let (cs', es) := pop_cells tid ri (ci + 1) cs
    (c' :: cs', e ++ es)

/-- Attribute part of the row step: pop the row `rawXml` into its key; a row
without an attrs dict is untouched. -/
def pop_row_attrs (tid : String) (ri : Nat) (a : Option Attrs) :
    Option Attrs × List (String × String) :=
  match a with
  | some ra =>
    match ra.rawXml with
    | some v => (some { ra with rawXml := none }, [(key_row tid ri, v)])
    | none => (some ra, [])
  | none => (none, [])

/-- Row step: pop the row `rawXml` into its key, then the row's cells. -/
def pop_row (tid : String) (ri : Nat) : TNode → TNode × List (String × String)
  | .mk t a c tx m =>
    let pa := pop_row_attrs tid ri a
    let pc := match c with
      | some cells =>
        let q := pop_cells tid ri 0 cells
        (some q.1, q.2)
      | none => (none, ([] : List (String × String)))
    (.mk t pa.1 pc.1 tx m, pa.2 ++ pc.2)

/-- `for row_idx, row in enumerate(node.get("content", []))`. -/
def pop_rows (tid : String) : Nat → List TNode → List TNode × List (String × String)
  | _, [] => ([], [])
  | ri, r :: rs =>
    let (r', e) := pop_row tid ri r
    let (rs', es) := pop_rows tid (ri + 1) rs
    (r' :: rs', e ++ es)

/-- Pop `rawTblPr` and `rawTblGrid` into their keys. -/
def pop_table_attrs (tid : String) (a : Attrs) : Attrs × List (String × String) :=
  let e1 : List (String × String) := match a.rawTblPr with
    | some v => [(key_tblPr tid, v)]
    | none => []
  let e2 : List (String × String) := match a.rawTblGrid with
    | some v => [(key_tblGrid tid, v)]
    | none => []
  ({ a with rawTblPr := none, rawTblGrid := none }, e1 ++ e2)

/-- Table-attrs step lifted to the optional attrs dict. -/
def extract_table_attrs (tid : String) (a : Option Attrs) :
    Option Attrs × List (String × String) :=
  match a with
  | some aa =>
    let q := pop_table_attrs tid aa
    (some q.1, q.2)
  | none => (none, [])

theorem tsize_pop_cell (tid : String) (ri ci : Nat) (c : TNode) :
    tsize (pop_cell tid ri ci c).1 = tsize c := by
  obtain ⟨t, a, cc, tx, m⟩ := c
  cases a with
  | none => rfl
  | some ca => cases cc <;> rfl

theorem lsize_pop_cells (tid : String) (ri : Nat) (ci : Nat) (cs : List TNode) :
    lsize (pop_cells tid ri ci cs).1 = lsize cs := by
  induction cs generalizing ci with
  | nil => rfl
  | cons c cs ih =>
    have h1 : (pop_cells tid ri ci (c :: cs)).1 =
        (pop_cell tid ri ci c).1 :: (pop_cells tid ri (ci + 1) cs).1 := rfl
    rw [h1]
    simp [lsize, tsize_pop_cell, ih]

theorem tsize_pop_row (tid : String) (ri : Nat) (r : TNode) :
    tsize (pop_row tid ri r).1 = tsize r := by
  obtain ⟨t, a, c, tx, m⟩ := r
  cases c with
  | none => rfl
  | some cells =>
    have h1 : (pop_row tid ri (.mk t a (some cells) tx m)).1 =
        .mk t (pop_row_attrs tid ri a).1 (some (pop_cells tid ri 0 cells).1) tx m := rfl
    rw [h1]
    simp [tsize, lsize_pop_cells]

theorem lsize_pop_rows (tid : String) (ri : Nat) (rs : List TNode) :
    lsize (pop_rows tid ri rs).1 = lsize rs := by
  induction rs generalizing ri with
  | nil => rfl
  | cons r rs ih =>
    have h1 : (pop_rows tid ri (r :: rs)).1 =
        (pop_row tid ri r).1 :: (pop_rows tid (ri + 1) rs).1 := rfl
    rw [h1]
    simp [lsize, tsize_pop_row, ih]

/-! `_extract_and_store_raw_styles`: walk the node tree; inside a table node
with a truthy id, pop the table-level raw attributes and the row/cell raw
attributes into keyed entries, then recurse into (the popped) children; for
every other node just recurse into children.  Returns the transformed tree
and the collected key→fragment entries in traversal order. -/
mutual

def extract_node : TNode → TNode × List (String × String)
  | .mk t a c tx m =>
    match c with
    | some rows =>
      match guard_id t a with
      | some tid =>
        let pa := extract_table_attrs tid a
        let pr := pop_rows tid 0 rows
        let pe := extract_list pr.1
        (.mk t pa.1 (some pe.1) tx m, pa.2 ++ pr.2 ++ pe.2)
      | none =>
        let pe := extract_list rows
        (.mk t a (some pe.1) tx m, pe.2)
    | none =>
      match guard_id t a with
      | some tid =>
        let pa := extract_table_attrs tid a
        (.mk t pa.1 none tx m, pa.2)
      | none => (.mk t a none tx m, [])
  termination_by n => 2 * tsize n
  decreasing_by
    all_goals (try simp only [lsize_pop_rows])
    all_goals (try simp [tsize])
    all_goals omega

def extract_list : List TNode → List TNode × List (String × String)
  | [] => ([], [])
  | n :: l =>
    let (n', e) := extract_node n
    let (l', es) := extract_list l
    (n' :: l', e ++ es)
  termination_by l => 2 * lsize l + 1
  decreasing_by
    all_goals simp [lsize]
    all_goals (try omega)
    all_goals (have hpos := tsize_pos n; omega)

end

/-! ## Restoration (spec §4.5), size-preservation lemmas, and the
specification of what extraction deliberately discards. -/

/-- Modelled from the spec: restoration merges a vaulted cell fragment back
`by key` onto the cell attributes (creating the attrs dict if the cell has
none); the module that reads the reserved node back before export is not in
the sources. -/
def merge_cell (vault : List (String × String)) (tid : String) (ri ci : Nat) :
    TNode → TNode
  | .mk t a c tx m =>
    match alookup (key_cell tid ri ci) vault with
    | some v => .mk t (some { (a.getD {}) with rawXml := some v }) c tx m
    | none => .mk t a c tx m

/-- Modelled from the spec: per-index restoration over the cells of a row. -/
def merge_cells (vault : List (String × String)) (tid : String) (ri : Nat) :
    Nat → List TNode → List TNode
  | _, [] => []
  | ci, c :: cs =>
    merge_cell vault tid ri ci c :: merge_cells vault tid ri (ci + 1) cs

/-- Modelled from the spec: restoration of a vaulted row fragment onto the
row attributes. -/
def merge_row_attrs (vault : List (String × String)) (tid : String) (ri : Nat)
    (a : Option Attrs) : Option Attrs :=
  match alookup (key_row tid ri) vault with
  | some v => some { (a.getD {}) with rawXml := some v }
  | none => a

/-- Modelled from the spec: restoration step for one row and its cells. -/
def merge_row (vault : List (String × String)) (tid : String) (ri : Nat) :
    TNode → TNode
  | .mk t a c tx m =>
    .mk t (merge_row_attrs vault tid ri a)
      (match c with
       | some cells => some (merge_cells vault tid ri 0 cells)
       | none => none) tx m

/-- Modelled from the spec: per-index restoration over the rows of a table. -/
def merge_rows (vault : List (String × String)) (tid : String) :
    Nat → List TNode → List TNode
  | _, [] => []
  | ri, r :: rs =>
    merge_row vault tid ri r :: merge_rows vault tid (ri + 1) rs

/-- Modelled from the spec: restoration of the vaulted table-level
properties and grid fragments. -/
def merge_table_attrs (vault : List (String × String)) (tid : String)
    (a : Attrs) : Attrs :=
  let a1 := match alookup (key_tblPr tid) vault with
    | some v => { a with rawTblPr := some v }
    | none => a
  match alookup (key_tblGrid tid) vault with
  | some v => { a1 with rawTblGrid := some v }
  | none => a1

/-- Modelled from the spec: restoration of table attributes lifted to the
optional attrs dict. -/
def restore_table_attrs (vault : List (String × String)) (tid : String)
    (a : Option Attrs) : Option Attrs :=
  match a with
  | some aa => some (merge_table_attrs vault tid aa)
  | none => none

theorem tsize_merge_cell (vault : List (String × String)) (tid : String)
    (ri ci : Nat) (c : TNode) : tsize (merge_cell vault tid ri ci c) = tsize c := by
  obtain ⟨t, a, cc, tx, m⟩ := c
  cases h : alookup (key_cell tid ri ci) vault <;> cases cc <;>
    simp [merge_cell, h, tsize]

theorem lsize_merge_cells (vault : List (String × String)) (tid : String)
    (ri ci : Nat) (cs : List TNode) :
    lsize (merge_cells vault tid ri ci cs) = lsize cs := by
  induction cs generalizing ci with
  | nil => rfl
  | cons c cs ih => simp [merge_cells, lsize, tsize_merge_cell, ih]

theorem tsize_merge_row (vault : List (String × String)) (tid : String)
    (ri : Nat) (r : TNode) : tsize (merge_row vault tid ri r) = tsize r := by
  obtain ⟨t, a, c, tx, m⟩ := r
  cases c with
  | none => rfl
  | some cells => simp [merge_row, tsize, lsize_merge_cells]

theorem lsize_merge_rows (vault : List (String × String)) (tid : String)
    (ri : Nat) (rs : List TNode) :
    lsize (merge_rows vault tid ri rs) = lsize rs := by
  induction rs generalizing ri with
  | nil => rfl
  | cons r rs ih => simp [merge_rows, lsize, tsize_merge_row, ih]

/-! Modelled from the spec: `restore_raw_styles` — before export the
reserved node (if present at the end of the top-level content) is parsed,
its entries are merged back onto the corresponding table/row/cell attributes
by key, and the reserved node itself is discarded; keys with no matching
live node are silently dropped.  The traversal mirrors the extraction
walk. -/
mutual

def restore_node (vault : List (String × String)) : TNode → TNode
  | .mk t a c tx m =>
    match c with
    | some rows =>
      match guard_id t a with
      | some tid =>
        .mk t (restore_table_attrs vault tid a)
          (some (restore_list vault (merge_rows vault tid 0 rows))) tx m
      | none => .mk t a (some (restore_list vault rows)) tx m
    | none =>
      match guard_id t a with
      | some tid => .mk t (restore_table_attrs vault tid a) none tx m
      | none => .mk t a none tx m
  termination_by n => 2 * tsize n
  decreasing_by
    all_goals (try simp only [lsize_merge_rows])
    all_goals (try simp [tsize])
    all_goals omega

def restore_list (vault : List (String × String)) : List TNode → List TNode
  | [] => []
  | n :: l => restore_node vault n :: restore_list vault l
  termination_by l => 2 * lsize l + 1
  decreasing_by
    all_goals simp [lsize]
    all_goals (try omega)
    all_goals (have hpos := tsize_pos n; omega)

end

/-- What extraction deliberately discards from a cell: the `colwidth`
attribute (removed because the target schema misreads its unit; the spec
recovers widths from the vaulted table fragments instead). -/
def strip_cell : TNode → TNode
  | .mk t (some ca) c tx m => .mk t (some { ca with colwidth := none }) c tx m
  | n => n

/-- `strip_cell` applied to every cell of a row. -/
def strip_row : TNode → TNode
  | .mk t a c tx m =>
    .mk t a
      (match c with
       | some cells => some (cells.map strip_cell)
       | none => none) tx m

theorem tsize_strip_cell (c : TNode) : tsize (strip_cell c) = tsize c := by
  obtain ⟨t, a, cc, tx, m⟩ := c
  cases a <;> cases cc <;> rfl

theorem lsize_map_strip_cell (cs : List TNode) :
    lsize (cs.map strip_cell) = lsize cs := by
  induction cs with
  | nil => rfl
  | cons c cs ih => simp [lsize, tsize_strip_cell, ih]

theorem tsize_strip_row (r : TNode) : tsize (strip_row r) = tsize r := by
  obtain ⟨t, a, c, tx, m⟩ := r
  cases c with
  | none => rfl
  | some cells => simp [strip_row, tsize, lsize_map_strip_cell]

theorem lsize_map_strip_row (rs : List TNode) :
    lsize (rs.map strip_row) = lsize rs := by
  induction rs with
  | nil => rfl
  | cons r rs ih => simp [lsize, tsize_strip_row, ih]

/-! The reference transform the round trip is compared against: the original
tree with exactly the deliberately-dropped `colwidth` attributes removed
(inside id-carrying tables), everything else unchanged. -/
mutual

def strip_node : TNode → TNode
  | .mk t a c tx m =>
    match c with
    | some rows =>
      match guard_id t a with
      | some _ => .mk t a (some (strip_list (rows.map strip_row))) tx m
      | none => .mk t a (some (strip_list rows)) tx m
    | none => .mk t a none tx m
  termination_by n => 2 * tsize n
  decreasing_by
    all_goals (try simp only [lsize_map_strip_row])
    all_goals (try simp [tsize])
    all_goals omega

def strip_list : List TNode → List TNode
  | [] => []
  | n :: l => strip_node n :: strip_list l
  termination_by l => 2 * lsize l + 1
  decreasing_by
    all_goals simp [lsize]
    all_goals (try omega)
    all_goals (have hpos := tsize_pos n; omega)

end

/-! The potential key space: every key the extraction may emit and the
restoration may look up, per table node (all indices of the present rows and
cells), collected over the whole tree. -/

def cell_keys (tid : String) (ri : Nat) : Nat → List TNode → List String
  | _, [] => []
  | ci, _ :: cs => key_cell tid ri ci :: cell_keys tid ri (ci + 1) cs

def row_keys (tid : String) : Nat → List TNode → List String
  | _, [] => []
  | ri, r :: rs =>
    key_row tid ri :: (cell_keys tid ri 0 r.contentD ++ row_keys tid (ri + 1) rs)

mutual

def keyspace_node : TNode → List String
  | .mk t a c _ _ =>
    match c with
    | some l =>
      (match guard_id t a with
       | some tid => key_tblPr tid :: key_tblGrid tid :: row_keys tid 0 l
       | none => []) ++ keyspace_list l
    | none =>
      match guard_id t a with
      | some tid => [key_tblPr tid, key_tblGrid tid]
      | none => []

def keyspace_list : List TNode → List String
  | [] => []
  | n :: l => keyspace_node n ++ keyspace_list l

end

/-! Shape of trees the projector produces: no node below a table (and no
node of a table-free region) triggers the table branch again — nested
tables inside cells are flattened by the projector (§4.4), so cell content
is free of id-carrying tables. -/
mutual

def table_free_node : TNode → Bool
  | .mk t a c _ _ =>
    !(guard_id t a).isSome &&
      (match c with
       | some l => table_free_list l
       | none => true)

def table_free_list : List TNode → Bool
  | [] => true
  | n :: l => table_free_node n && table_free_list l

end

/-- A row of a projected table: not itself an id-carrying table, and its
cells are table-free regions. -/
def wf_row : TNode → Bool
  | .mk t a c _ _ =>
    !(guard_id t a).isSome &&
      (match c with
       | some cells => cells.all table_free_node
       | none => true)

mutual

def wf_node : TNode → Bool
  | .mk t a c _ _ =>
    match c with
    | some l =>
      match guard_id t a with
      | some _ => l.all wf_row
      | none => wf_list l
    | none => true

def wf_list : List TNode → Bool
  | [] => true
  | n :: l => wf_node n && wf_list l

end

/-- The reserved fidelity-storage node: `{"type": "rawStylesStorage",
"attrs": {"data": json.dumps(raw_styles)}}` (the JSON-serialized map is
modelled by the association list itself, `json.loads ∘ json.dumps` being the
identity on it). -/
def storage_node (styles : List (String × String)) : TNode :=
  .mk "rawStylesStorage" (some { data := some styles }) none none none

/-- The tail of `TipTapConverter.convert`: extract the raw styles from the
content and, when any were found, append the reserved storage node at the
end of the top-level content. -/
def attach_raw_styles (content : List TNode) : List TNode :=
  let q := extract_list content
  if q.2.isEmpty then q.1 else q.1 ++ [storage_node q.2]

/-- Modelled from the spec: `restore_raw_styles` on the self-contained tree
— if the last top-level node is the reserved storage node, parse its map,
merge every entry back by key and discard the node; otherwise there is
nothing to restore.  (The sources only contain the legacy server-side-store
variant in `backend/main.py`; this definition follows §4.5 of the spec.) -/
def restore_raw_styles (content : List TNode) : List TNode :=
  match content.getLast? with
  | some last =>
    if last.type = "rawStylesStorage" then
      restore_list ((last.attrs?.bind Attrs.data).getD []) content.dropLast
    else content
  | none => content

/-! One-step unfolding equations for the well-founded mutual definitions,
restated as simp lemmas on the constructor. -/

@[simp]
theorem keyspace_node_mk (t : String) (a : Option Attrs) (c : Option (List TNode))
    (tx : Option String) (m : Option (List Mark)) :
    keyspace_node (.mk t a c tx m) =
      (match guard_id t a with
       | some tid => key_tblPr tid :: key_tblGrid tid :: row_keys tid 0 (c.getD [])
       | none => []) ++
      (match c with
       | some l => keyspace_list l
       | none => []) := by
  rw [keyspace_node.eq_def]
  cases c with
  | some l =>
    cases hg : guard_id t a <;> simp [hg]
  | none =>
    cases hg : guard_id t a <;> simp [hg, row_keys]

@[simp]
theorem keyspace_list_nil : keyspace_list [] = [] := rfl

@[simp]
theorem keyspace_list_cons (n : TNode) (l : List TNode) :
    keyspace_list (n :: l) = keyspace_node n ++ keyspace_list l := rfl

@[simp]
theorem table_free_node_mk (t : String) (a : Option Attrs) (c : Option (List TNode))
    (tx : Option String) (m : Option (List Mark)) :
    table_free_node (.mk t a c tx m) =
      (!(guard_id t a).isSome &&
        (match c with
         | some l => table_free_list l
         | none => true)) := by
  rw [table_free_node.eq_def]

@[simp]
theorem table_free_list_nil : table_free_list [] = true := rfl

@[simp]
theorem table_free_list_cons (n : TNode) (l : List TNode) :
    table_free_list (n :: l) = (table_free_node n && table_free_list l) := rfl

@[simp]
theorem wf_row_mk (t : String) (a : Option Attrs) (c : Option (List TNode))
    (tx : Option String) (m : Option (List Mark)) :
    wf_row (.mk t a c tx m) =
      (!(guard_id t a).isSome &&
        (match c with
         | some cells => cells.all table_free_node
         | none => true)) := rfl

/-! Association-list lookup over appends, and key bookkeeping. -/

theorem alookup_append_some {β : Type} (k : String) (xs ys : List (String × β))
    (v : β) (h : alookup k xs = some v) : alookup k (xs ++ ys) = some v := by
  induction xs with
  | nil => cases h
  | cons p t ih =>
    obtain ⟨k', v'⟩ := p
    by_cases hk : k = k'
    · simp only [alookup_cons, hk, if_true, Option.some.injEq, reduceIte] at h
      simp [alookup, hk, h]
    · simp only [alookup_cons, hk, if_false, reduceIte] at h
      simpa [alookup, hk] using ih h

theorem alookup_append_none {β : Type} (k : String) (xs ys : List (String × β))
    (h : alookup k xs = none) : alookup k (xs ++ ys) = alookup k ys := by
  induction xs with
  | nil => rfl
  | cons p t ih =>
    obtain ⟨k', v'⟩ := p
    by_cases hk : k = k'
    · simp [alookup, hk] at h
    · simp only [alookup_cons, hk, if_false, reduceIte] at h
      simpa [alookup, hk] using ih h

theorem alookup_eq_none {β : Type} (k : String) (xs : List (String × β))
    (h : k ∉ xs.map Prod.fst) : alookup k xs = none := by
  induction xs with
  | nil => rfl
  | cons p t ih =>
    obtain ⟨k', v'⟩ := p
    simp only [List.map_cons, List.mem_cons] at h
    push_neg at h
    simp [alookup, h.1, ih h.2]

theorem alookup_localize_left {β : Type} {vault xs ys : List (String × β)}
    {k : String} (h : alookup k vault = alookup k (xs ++ ys))
    (hk : k ∉ ys.map Prod.fst) : alookup k vault = alookup k xs := by
  rw [h]
  cases hx : alookup k xs with
  | some v => exact alookup_append_some k xs ys v hx
  | none =>
    rw [alookup_append_none k xs ys hx]
    exact alookup_eq_none k ys hk

theorem alookup_localize_right {β : Type} {vault xs ys : List (String × β)}
    {k : String} (h : alookup k vault = alookup k (xs ++ ys))
    (hk : k ∉ xs.map Prod.fst) : alookup k vault = alookup k ys := by
  rw [h, alookup_append_none k xs ys (alookup_eq_none k xs hk)]

theorem keys_pop_cell (tid : String) (ri ci : Nat) (c : TNode) :
    ∀ p ∈ (pop_cell tid ri ci c).2, p.1 = key_cell tid ri ci := by
  obtain ⟨t, a, cc, tx, m⟩ := c
  cases a with
  | none => simp [pop_cell]
  | some ca => cases hx : ca.rawXml <;> simp [pop_cell, hx]

theorem keys_pop_cells (tid : String) (ri : Nat) (cs : List TNode) :
    ∀ ci, ∀ p ∈ (pop_cells tid ri ci cs).2, p.1 ∈ cell_keys tid ri ci cs := by
  induction cs with
  | nil => intro ci p hp; simp [pop_cells] at hp
  | cons c cs ih =>
    intro ci p hp
    have h1 : (pop_cells tid ri ci (c :: cs)).2 =
        (pop_cell tid ri ci c).2 ++ (pop_cells tid ri (ci + 1) cs).2 := rfl
    rw [h1] at hp
    rcases List.mem_append.mp hp with hp | hp
    · simp [cell_keys, keys_pop_cell tid ri ci c p hp]
    · simp [cell_keys]
      exact Or.inr (ih (ci + 1) p hp)

theorem keys_pop_row_attrs (tid : String) (ri : Nat) (a : Option Attrs) :
    ∀ p ∈ (pop_row_attrs tid ri a).2, p.1 = key_row tid ri := by
  intro p hp
  cases a with
  | none => simp [pop_row_attrs] at hp
  | some ra =>
    cases hx : ra.rawXml with
    | none => simp [pop_row_attrs, hx] at hp
    | some v =>
      simp [pop_row_attrs, hx] at hp
      simp [hp]

theorem keys_pop_row (tid : String) (ri : Nat) (r : TNode) :
    ∀ p ∈ (pop_row tid ri r).2,
      p.1 ∈ key_row tid ri :: cell_keys tid ri 0 r.contentD := by
  obtain ⟨t, a, c, tx, m⟩ := r
  cases c with
  | none =>
    intro p hp
    have h1 : (pop_row tid ri (.mk t a none tx m)).2 =
        (pop_row_attrs tid ri a).2 ++ [] := rfl
    rw [h1, List.append_nil] at hp
    exact List.mem_cons.mpr (Or.inl (keys_pop_row_attrs tid ri a p hp))
  | some cells =>
    intro p hp
    have h1 : (pop_row tid ri (.mk t a (some cells) tx m)).2 =
        (pop_row_attrs tid ri a).2 ++ (pop_cells tid ri 0 cells).2 := rfl
    rw [h1] at hp
    rcases List.mem_append.mp hp with hp | hp
    · exact List.mem_cons.mpr (Or.inl (keys_pop_row_attrs tid ri a p hp))
    · refine List.mem_cons.mpr (Or.inr ?_)
      simpa [TNode.contentD, TNode.content?] using keys_pop_cells tid ri cells 0 p hp

theorem keys_pop_rows (tid : String) (rs : List TNode) :
    ∀ ri, ∀ p ∈ (pop_rows tid ri rs).2, p.1 ∈ row_keys tid ri rs := by
  induction rs with
  | nil => intro ri p hp; simp [pop_rows] at hp
  | cons r rs ih =>
    intro ri p hp
    have h1 : (pop_rows tid ri (r :: rs)).2 =
        (pop_row tid ri r).2 ++ (pop_rows tid (ri + 1) rs).2 := rfl
    rw [h1] at hp
    rcases List.mem_append.mp hp with hp | hp
    · have := keys_pop_row tid ri r p hp
      simp only [row_keys, List.mem_cons, List.mem_append]
      rcases List.mem_cons.mp this with h | h
      · exact Or.inl h
      · exact Or.inr (Or.inl h)
    · simp only [row_keys, List.mem_cons, List.mem_append]
      exact Or.inr (Or.inr (ih (ri + 1) p hp))

theorem keys_pop_table_attrs (tid : String) (aa : Attrs) :
    ∀ p ∈ (pop_table_attrs tid aa).2,
      p.1 = key_tblPr tid ∨ p.1 = key_tblGrid tid := by
  intro p hp
  simp only [pop_table_attrs] at hp
  rcases List.mem_append.mp hp with hp | hp
  · cases hp1 : aa.rawTblPr with
    | none => rw [hp1] at hp; cases hp
    | some v =>
      rw [hp1] at hp
      rcases List.mem_singleton.mp hp with rfl
      exact Or.inl rfl
  · cases hp2 : aa.rawTblGrid with
    | none => rw [hp2] at hp; cases hp
    | some v =>
      rw [hp2] at hp
      rcases List.mem_singleton.mp hp with rfl
      exact Or.inr rfl

theorem keys_extract_table_attrs (tid : String) (a : Option Attrs) :
    ∀ p ∈ (extract_table_attrs tid a).2,
      p.1 = key_tblPr tid ∨ p.1 = key_tblGrid tid := by
  intro p hp
  cases a with
  | none => simp [extract_table_attrs] at hp
  | some aa => exact keys_pop_table_attrs tid aa p (by simpa [extract_table_attrs] using hp)

/-! The pops and strips change only attributes, so the table branch guard
and table-freeness are preserved. -/

theorem guard_pop_cell (t : String) (ca : Attrs) :
    guard_id t (some { ca with rawXml := none, colwidth := none }) =
      guard_id t (some ca) := by
  simp [guard_id, table_id?]

theorem table_free_list_eq_all (l : List TNode) :
    table_free_list l = l.all table_free_node := by
  induction l with
  | nil => rfl
  | cons n l ih => simp [List.all_cons, ih]

theorem tf_pop_cell (tid : String) (ri ci : Nat) (c : TNode)
    (h : table_free_node c = true) :
    table_free_node (pop_cell tid ri ci c).1 = true := by
  obtain ⟨t, a, cc, tx, m⟩ := c
  cases a with
  | none => exact h
  | some ca =>
    have h1 : (pop_cell tid ri ci (.mk t (some ca) cc tx m)).1 =
        .mk t (some { ca with rawXml := none, colwidth := none }) cc tx m := by
      cases hx : ca.rawXml <;> rfl
    rw [h1]
    rw [table_free_node_mk] at h ⊢
    rwa [guard_pop_cell]

theorem tf_pop_cells (tid : String) (ri : Nat) (cs : List TNode)
    (h : table_free_list cs = true) :
    ∀ ci, table_free_list (pop_cells tid ri ci cs).1 = true := by
  induction cs with
  | nil => intro ci; exact h
  | cons c cs ih =>
    intro ci
    rw [table_free_list_cons] at h
    have h1 : (pop_cells tid ri ci (c :: cs)).1 =
        (pop_cell tid ri ci c).1 :: (pop_cells tid ri (ci + 1) cs).1 := rfl
    rw [h1, table_free_list_cons]
    simp only [Bool.and_eq_true] at h ⊢
    exact ⟨tf_pop_cell tid ri ci c h.1, ih h.2 (ci + 1)⟩

theorem guard_pop_row_attrs (tid : String) (ri : Nat) (t : String) (a : Option Attrs) :
    guard_id t (pop_row_attrs tid ri a).1 = guard_id t a := by
  cases a with
  | none => rfl
  | some ra =>
    cases hx : ra.rawXml <;> simp [pop_row_attrs, hx, guard_id, table_id?]

theorem tf_pop_row (tid : String) (ri : Nat) (r : TNode)
    (h : table_free_node r = true) :
    table_free_node (pop_row tid ri r).1 = true := by
  obtain ⟨t, a, c, tx, m⟩ := r
  cases c with
  | none =>
    have h1 : (pop_row tid ri (.mk t a none tx m)).1 =
        .mk t (pop_row_attrs tid ri a).1 none tx m := rfl
    rw [h1]
    rw [table_free_node_mk] at h ⊢
    rwa [guard_pop_row_attrs]
  | some cells =>
    have h1 : (pop_row tid ri (.mk t a (some cells) tx m)).1 =
        .mk t (pop_row_attrs tid ri a).1 (some (pop_cells tid ri 0 cells).1) tx m := rfl
    rw [h1]
    rw [table_free_node_mk] at h ⊢
    rw [guard_pop_row_attrs]
    simp only [Bool.and_eq_true] at h ⊢
    exact ⟨h.1, tf_pop_cells tid ri cells h.2 0⟩

theorem tf_pop_rows (tid : String) (rs : List TNode)
    (h : table_free_list rs = true) :
    ∀ ri, table_free_list (pop_rows tid ri rs).1 = true := by
  induction rs with
  | nil => intro ri; exact h
  | cons r rs ih =>
    intro ri
    rw [table_free_list_cons] at h
    have h1 : (pop_rows tid ri (r :: rs)).1 =
        (pop_row tid ri r).1 :: (pop_rows tid (ri + 1) rs).1 := rfl
    rw [h1, table_free_list_cons]
    simp only [Bool.and_eq_true] at h ⊢
    exact ⟨tf_pop_row tid ri r h.1, ih h.2 (ri + 1)⟩

theorem tf_strip_cell (c : TNode) (h : table_free_node c = true) :
    table_free_node (strip_cell c) = true := by
  obtain ⟨t, a, cc, tx, m⟩ := c
  cases a with
  | none => exact h
  | some ca =>
    rw [strip_cell]
    rw [table_free_node_mk] at h ⊢
    have hg : guard_id t (some { ca with colwidth := none }) = guard_id t (some ca) := by
      simp [guard_id, table_id?]
    rwa [hg]

theorem tf_map_strip_cell (cs : List TNode) (h : table_free_list cs = true) :
    table_free_list (cs.map strip_cell) = true := by
  induction cs with
  | nil => exact h
  | cons c cs ih =>
    rw [table_free_list_cons] at h
    rw [List.map_cons, table_free_list_cons]
    simp only [Bool.and_eq_true] at h ⊢
    exact ⟨tf_strip_cell c h.1, ih h.2⟩

theorem tf_strip_row (r : TNode) (h : table_free_node r = true) :
    table_free_node (strip_row r) = true := by
  obtain ⟨t, a, c, tx, m⟩ := r
  cases c with
  | none => exact h
  | some cells =>
    rw [strip_row]
    rw [table_free_node_mk] at h ⊢
    simp only [Bool.and_eq_true] at h ⊢
    exact ⟨h.1, tf_map_strip_cell cells h.2⟩

theorem tf_map_strip_row (rs : List TNode) (h : table_free_list rs = true) :
    table_free_list (rs.map strip_row) = true := by
  induction rs with
  | nil => exact h
  | cons r rs ih =>
    rw [table_free_list_cons] at h
    rw [List.map_cons, table_free_list_cons]
    simp only [Bool.and_eq_true] at h ⊢
    exact ⟨tf_strip_row r h.1, ih h.2⟩

theorem wf_row_tf (r : TNode) (h : wf_row r = true) : table_free_node r = true := by
  obtain ⟨t, a, c, tx, m⟩ := r
  rw [wf_row_mk] at h
  rw [table_free_node_mk]
  simp only [Bool.and_eq_true] at h ⊢
  refine ⟨h.1, ?_⟩
  cases c with
  | none => rfl
  | some cells =>
    show table_free_list cells = true
    rw [table_free_list_eq_all]
    exact h.2

theorem wf_rows_tf (rs : List TNode) (h : rs.all wf_row = true) :
    table_free_list rs = true := by
  rw [table_free_list_eq_all]
  rw [List.all_eq_true] at h ⊢
  exact fun n hn => wf_row_tf n (h n hn)

/-! One-step unfolding equations for the extraction, restoration and strip
walks (their recursion is well-founded, so the equations are stated per
guard case). -/

theorem extract_node_table (t : String) (a : Option Attrs) (tx : Option String)
    (m : Option (List Mark)) (rows : List TNode) (tid : String)
    (hg : guard_id t a = some tid) :
    extract_node (.mk t a (some rows) tx m) =
      (.mk t (extract_table_attrs tid a).1
         (some (extract_list (pop_rows tid 0 rows).1).1) tx m,
       (extract_table_attrs tid a).2 ++ (pop_rows tid 0 rows).2 ++
         (extract_list (pop_rows tid 0 rows).1).2) := by
  rw [extract_node.eq_def]
  dsimp only
  rw [hg]

theorem extract_node_generic (t : String) (a : Option Attrs) (tx : Option String)
    (m : Option (List Mark)) (l : List TNode) (hg : guard_id t a = none) :
    extract_node (.mk t a (some l) tx m) =
      (.mk t a (some (extract_list l).1) tx m, (extract_list l).2) := by
  rw [extract_node.eq_def]
  dsimp only
  rw [hg]

theorem extract_node_table_nocontent (t : String) (a : Option Attrs)
    (tx : Option String) (m : Option (List Mark)) (tid : String)
    (hg : guard_id t a = some tid) :
    extract_node (.mk t a none tx m) =
      (.mk t (extract_table_attrs tid a).1 none tx m,
       (extract_table_attrs tid a).2) := by
  rw [extract_node.eq_def]
  dsimp only
  rw [hg]

theorem extract_node_plain (t : String) (a : Option Attrs) (tx : Option String)
    (m : Option (List Mark)) (hg : guard_id t a = none) :
    extract_node (.mk t a none tx m) = (.mk t a none tx m, []) := by
  rw [extract_node.eq_def]
  dsimp only
  rw [hg]

theorem extract_list_nil : extract_list [] = ([], []) := by
  rw [extract_list.eq_def]

theorem extract_list_cons (n : TNode) (l : List TNode) :
    extract_list (n :: l) =
      ((extract_node n).1 :: (extract_list l).1,
       (extract_node n).2 ++ (extract_list l).2) := by
  rw [extract_list.eq_def]

theorem restore_node_table (vault : List (String × String)) (t : String)
    (a : Option Attrs) (tx : Option String) (m : Option (List Mark))
    (rows : List TNode) (tid : String) (hg : guard_id t a = some tid) :
    restore_node vault (.mk t a (some rows) tx m) =
      .mk t (restore_table_attrs vault tid a)
        (some (restore_list vault (merge_rows vault tid 0 rows))) tx m := by
  rw [restore_node.eq_def]
  dsimp only
  rw [hg]

theorem restore_node_generic (vault : List (String × String)) (t : String)
    (a : Option Attrs) (tx : Option String) (m : Option (List Mark))
    (l : List TNode) (hg : guard_id t a = none) :
    restore_node vault (.mk t a (some l) tx m) =
      .mk t a (some (restore_list vault l)) tx m := by
  rw [restore_node.eq_def]
  dsimp only
  rw [hg]

theorem restore_node_table_nocontent (vault : List (String × String))
    (t : String) (a : Option Attrs) (tx : Option String) (m : Option (List Mark))
    (tid : String) (hg : guard_id t a = some tid) :
    restore_node vault (.mk t a none tx m) =
      .mk t (restore_table_attrs vault tid a) none tx m := by
  rw [restore_node.eq_def]
  dsimp only
  rw [hg]

theorem restore_node_plain (vault : List (String × String)) (t : String)
    (a : Option Attrs) (tx : Option String) (m : Option (List Mark))
    (hg : guard_id t a = none) :
    restore_node vault (.mk t a none tx m) = .mk t a none tx m := by
  rw [restore_node.eq_def]
  dsimp only
  rw [hg]

theorem restore_list_nil (vault : List (String × String)) :
    restore_list vault [] = [] := by
  rw [restore_list.eq_def]

theorem restore_list_cons (vault : List (String × String)) (n : TNode)
    (l : List TNode) :
    restore_list vault (n :: l) =
      restore_node vault n :: restore_list vault l := by
  rw [restore_list.eq_def]

theorem strip_node_table (t : String) (a : Option Attrs) (tx : Option String)
    (m : Option (List Mark)) (rows : List TNode) (tid : String)
    (hg : guard_id t a = some tid) :
    strip_node (.mk t a (some rows) tx m) =
      .mk t a (some (strip_list (rows.map strip_row))) tx m := by
  rw [strip_node.eq_def]
  dsimp only
  rw [hg]

theorem strip_node_generic (t : String) (a : Option Attrs) (tx : Option String)
    (m : Option (List Mark)) (l : List TNode) (hg : guard_id t a = none) :
    strip_node (.mk t a (some l) tx m) = .mk t a (some (strip_list l)) tx m := by
  rw [strip_node.eq_def]
  dsimp only
  rw [hg]

theorem strip_node_none (t : String) (a : Option Attrs) (tx : Option String)
    (m : Option (List Mark)) :
    strip_node (.mk t a none tx m) = .mk t a none tx m := by
  rw [strip_node.eq_def]

theorem strip_list_nil : strip_list [] = [] := by
  rw [strip_list.eq_def]

theorem strip_list_cons (n : TNode) (l : List TNode) :
    strip_list (n :: l) = strip_node n :: strip_list l := by
  rw [strip_list.eq_def]

/-! On table-free regions the extraction walk collects nothing and the
restoration and strip walks are the identity. -/

theorem tf_extract (fuel : Nat) :
    (∀ n, tsize n ≤ fuel → table_free_node n = true → extract_node n = (n, [])) ∧
    (∀ l, lsize l ≤ fuel → table_free_list l = true → extract_list l = (l, [])) := by
  induction fuel with
  | zero =>
    constructor
    · intro n hn _
      exact absurd hn (by have := tsize_pos n; omega)
    · intro l hl _
      cases l with
      | nil => exact extract_list_nil
      | cons n l =>
        exfalso
        have := tsize_pos n
        simp [lsize] at hl
        omega
  | succ fuel ih =>
    have hnode : ∀ n, tsize n ≤ fuel + 1 → table_free_node n = true →
        extract_node n = (n, []) := by
      intro n hn htf
      obtain ⟨t, a, c, tx, m⟩ := n
      rw [table_free_node_mk] at htf
      simp only [Bool.and_eq_true, Bool.not_eq_true'] at htf
      have hg : guard_id t a = none := by
        cases hx : guard_id t a with
        | none => rfl
        | some v => rw [hx] at htf; simp at htf
      cases c with
      | none => rw [extract_node_plain t a tx m hg]
      | some l =>
        have htfl : table_free_list l = true := htf.2
        have hsz : lsize l ≤ fuel := by
          simp [tsize] at hn
          omega
        rw [extract_node_generic t a tx m l hg, (ih.2) l hsz htfl]
    refine ⟨hnode, ?_⟩
    intro l hl htf
    cases l with
    | nil => exact extract_list_nil
    | cons n l =>
      rw [table_free_list_cons] at htf
      simp only [Bool.and_eq_true] at htf
      have h1 : tsize n ≤ fuel + 1 := by
        have := lsize l
        simp [lsize] at hl
        omega
      have h2 : lsize l ≤ fuel := by
        have := tsize_pos n
        simp [lsize] at hl
        omega
      rw [extract_list_cons, hnode n h1 htf.1, (ih.2) l h2 htf.2]
      rfl

theorem tf_restore (vault : List (String × String)) (fuel : Nat) :
    (∀ n, tsize n ≤ fuel → table_free_node n = true →
      restore_node vault n = n) ∧
    (∀ l, lsize l ≤ fuel → table_free_list l = true →
      restore_list vault l = l) := by
  induction fuel with
  | zero =>
    constructor
    · intro n hn _
      exact absurd hn (by have := tsize_pos n; omega)
    · intro l hl _
      cases l with
      | nil => exact restore_list_nil vault
      | cons n l =>
        exfalso
        have := tsize_pos n
        simp [lsize] at hl
        omega
  | succ fuel ih =>
    have hnode : ∀ n, tsize n ≤ fuel + 1 → table_free_node n = true →
        restore_node vault n = n := by
      intro n hn htf
      obtain ⟨t, a, c, tx, m⟩ := n
      rw [table_free_node_mk] at htf
      simp only [Bool.and_eq_true, Bool.not_eq_true'] at htf
      have hg : guard_id t a = none := by
        cases hx : guard_id t a with
        | none => rfl
        | some v => rw [hx] at htf; simp at htf
      cases c with
      | none => rw [restore_node_plain vault t a tx m hg]
      | some l =>
        have htfl : table_free_list l = true := htf.2
        have hsz : lsize l ≤ fuel := by
          simp [tsize] at hn
          omega
        rw [restore_node_generic vault t a tx m l hg, (ih.2) l hsz htfl]
    refine ⟨hnode, ?_⟩
    intro l hl htf
    cases l with
    | nil => exact restore_list_nil vault
    | cons n l =>
      rw [table_free_list_cons] at htf
      simp only [Bool.and_eq_true] at htf
      have h1 : tsize n ≤ fuel + 1 := by
        simp [lsize] at hl
        omega
      have h2 : lsize l ≤ fuel := by
        have := tsize_pos n
        simp [lsize] at hl
        omega
      rw [restore_list_cons, hnode n h1 htf.1, (ih.2) l h2 htf.2]

theorem tf_strip (fuel : Nat) :
    (∀ n, tsize n ≤ fuel → table_free_node n = true → strip_node n = n) ∧
    (∀ l, lsize l ≤ fuel → table_free_list l = true → strip_list l = l) := by
  induction fuel with
  | zero =>
    constructor
    · intro n hn _
      exact absurd hn (by have := tsize_pos n; omega)
    · intro l hl _
      cases l with
      | nil => exact strip_list_nil
      | cons n l =>
        exfalso
        have := tsize_pos n
        simp [lsize] at hl
        omega
  | succ fuel ih =>
    have hnode : ∀ n, tsize n ≤ fuel + 1 → table_free_node n = true →
        strip_node n = n := by
      intro n hn htf
      obtain ⟨t, a, c, tx, m⟩ := n
      rw [table_free_node_mk] at htf
      simp only [Bool.and_eq_true, Bool.not_eq_true'] at htf
      have hg : guard_id t a = none := by
        cases hx : guard_id t a with
        | none => rfl
        | some v => rw [hx] at htf; simp at htf
      cases c with
      | none => rw [strip_node_none]
      | some l =>
        have htfl : table_free_list l = true := htf.2
        have hsz : lsize l ≤ fuel := by
          simp [tsize] at hn
          omega
        rw [strip_node_generic t a tx m l hg, (ih.2) l hsz htfl]
    refine ⟨hnode, ?_⟩
    intro l hl htf
    cases l with
    | nil => exact strip_list_nil
    | cons n l =>
      rw [table_free_list_cons] at htf
      simp only [Bool.and_eq_true] at htf
      have h1 : tsize n ≤ fuel + 1 := by
        simp [lsize] at hl
        omega
      have h2 : lsize l ≤ fuel := by
        have := tsize_pos n
        simp [lsize] at hl
        omega
      rw [strip_list_cons, hnode n h1 htf.1, (ih.2) l h2 htf.2]

theorem tf_extract_list (l : List TNode) (h : table_free_list l = true) :
    extract_list l = (l, []) :=
  (tf_extract (lsize l)).2 l (Nat.le_refl _) h

theorem tf_restore_list (vault : List (String × String)) (l : List TNode)
    (h : table_free_list l = true) : restore_list vault l = l :=
  (tf_restore vault (lsize l)).2 l (Nat.le_refl _) h

theorem tf_strip_list (l : List TNode) (h : table_free_list l = true) :
    strip_list l = l :=
  (tf_strip (lsize l)).2 l (Nat.le_refl _) h

/-! Merging the extracted entries back reproduces the stripped original:
first at the level of table attributes, then cells, then rows. -/

theorem not_mem_keys_of_sub {β : Type} (k : String) (xs : List (String × β))
    (ks : List String) (hsub : ∀ p ∈ xs, p.1 ∈ ks) (hk : k ∉ ks) :
    k ∉ xs.map Prod.fst := by
  intro hmem
  obtain ⟨p, hp, hpk⟩ := List.mem_map.mp hmem
  exact hk (hpk ▸ hsub p hp)

theorem merge_pop_table_attrs (vault : List (String × String)) (tid : String)
    (aa : Attrs)
    (h1 : alookup (key_tblPr tid) vault =
      alookup (key_tblPr tid) (pop_table_attrs tid aa).2)
    (h2 : alookup (key_tblGrid tid) vault =
      alookup (key_tblGrid tid) (pop_table_attrs tid aa).2)
    (hne : key_tblPr tid ≠ key_tblGrid tid) :
    merge_table_attrs vault tid (pop_table_attrs tid aa).1 = aa := by
  obtain ⟨i, lv, rp, rg, rx, cw, da, rest⟩ := aa
  cases rp <;> cases rg <;>
    (simp [pop_table_attrs, hne, Ne.symm hne] at h1 h2
     simp [pop_table_attrs, merge_table_attrs, h1, h2])

theorem merge_pop_row_attrs (vault : List (String × String)) (tid : String)
    (ri : Nat) (a : Option Attrs) (extra : List (String × String))
    (hv : alookup (key_row tid ri) vault =
      alookup (key_row tid ri) ((pop_row_attrs tid ri a).2 ++ extra))
    (hextra : key_row tid ri ∉ extra.map Prod.fst) :
    merge_row_attrs vault tid ri (pop_row_attrs tid ri a).1 = a := by
  cases a with
  | none =>
    simp only [pop_row_attrs, List.nil_append] at hv
    rw [alookup_eq_none (key_row tid ri) extra hextra] at hv
    simp [merge_row_attrs, hv, pop_row_attrs]
  | some ra =>
    obtain ⟨i, lv, rp, rg, rx, cw, da, rest⟩ := ra
    cases rx with
    | some v =>
      simp only [pop_row_attrs, List.cons_append, List.nil_append,
        alookup_cons, if_pos rfl] at hv
      simp [merge_row_attrs, hv, pop_row_attrs]
    | none =>
      simp only [pop_row_attrs, List.nil_append] at hv
      rw [alookup_eq_none (key_row tid ri) extra hextra] at hv
      simp [merge_row_attrs, hv, pop_row_attrs]

theorem merge_pop_cells (vault : List (String × String)) (tid : String)
    (ri : Nat) :
    ∀ (cs : List TNode) (ci : Nat),
      (cell_keys tid ri ci cs).Nodup →
      (∀ k ∈ cell_keys tid ri ci cs,
        alookup k vault = alookup k (pop_cells tid ri ci cs).2) →
      merge_cells vault tid ri ci (pop_cells tid ri ci cs).1 =
        cs.map strip_cell := by
  intro cs
  induction cs with
  | nil => intro ci _ _; rfl
  | cons c cs ih =>
    intro ci hnd H
    have hpc : pop_cells tid ri ci (c :: cs) =
        ((pop_cell tid ri ci c).1 :: (pop_cells tid ri (ci + 1) cs).1,
         (pop_cell tid ri ci c).2 ++ (pop_cells tid ri (ci + 1) cs).2) := rfl
    have hck : cell_keys tid ri ci (c :: cs) =
        key_cell tid ri ci :: cell_keys tid ri (ci + 1) cs := rfl
    rw [hck] at hnd H
    have hk0 : key_cell tid ri ci ∉ cell_keys tid ri (ci + 1) cs :=
      (List.nodup_cons.mp hnd).1
    have hnd' : (cell_keys tid ri (ci + 1) cs).Nodup :=
      (List.nodup_cons.mp hnd).2
    have hes : key_cell tid ri ci ∉
        ((pop_cells tid ri (ci + 1) cs).2).map Prod.fst :=
      not_mem_keys_of_sub _ _ _ (keys_pop_cells tid ri cs (ci + 1)) hk0
    have H0 := H (key_cell tid ri ci) (List.mem_cons_self _ _)
    rw [hpc] at H0
    have Htail : ∀ k ∈ cell_keys tid ri (ci + 1) cs,
        alookup k vault = alookup k (pop_cells tid ri (ci + 1) cs).2 := by
      intro k hk
      have hk1 : k ≠ key_cell tid ri ci := fun he => hk0 (he ▸ hk)
      have hx := H k (List.mem_cons_of_mem _ hk)
      rw [hpc] at hx
      refine alookup_localize_right hx ?_
      exact not_mem_keys_of_sub _ _ _
        (fun p hp => List.mem_singleton.mpr (keys_pop_cell tid ri ci c p hp))
        (by simpa using fun he => hk1 he)
    have hmc : merge_cells vault tid ri ci
        ((pop_cell tid ri ci c).1 :: (pop_cells tid ri (ci + 1) cs).1) =
        merge_cell vault tid ri ci (pop_cell tid ri ci c).1 ::
          merge_cells vault tid ri (ci + 1) (pop_cells tid ri (ci + 1) cs).1 := rfl
    have hhead : merge_cell vault tid ri ci (pop_cell tid ri ci c).1 =
        strip_cell c := by
      obtain ⟨t, a, cc, ctx, cm⟩ := c
      cases a with
      | none =>
        have h1 : pop_cell tid ri ci (.mk t none cc ctx cm) =
            (.mk t none cc ctx cm, []) := rfl
        rw [h1] at H0 ⊢
        simp only [List.nil_append] at H0
        rw [alookup_eq_none _ _ hes] at H0
        simp [merge_cell, H0, strip_cell]
      | some ca =>
        obtain ⟨i, lv, rp, rg, rx, cw, da, rest⟩ := ca
        cases rx with
        | some v =>
          have h1 : pop_cell tid ri ci
              (.mk t (some ⟨i, lv, rp, rg, some v, cw, da, rest⟩) cc ctx cm) =
              (.mk t (some ⟨i, lv, rp, rg, none, none, da, rest⟩) cc ctx cm,
               [(key_cell tid ri ci, v)]) := rfl
          rw [h1] at H0 ⊢
          simp only [List.cons_append, List.nil_append, alookup_cons,
            if_pos rfl] at H0
          simp [merge_cell, H0, strip_cell]
        | none =>
          have h1 : pop_cell tid ri ci
              (.mk t (some ⟨i, lv, rp, rg, none, cw, da, rest⟩) cc ctx cm) =
              (.mk t (some ⟨i, lv, rp, rg, none, none, da, rest⟩) cc ctx cm,
               []) := rfl
          rw [h1] at H0 ⊢
          simp only [List.nil_append] at H0
          rw [alookup_eq_none _ _ hes] at H0
          simp [merge_cell, H0, strip_cell]
    rw [hpc]
    simp only at hmc ⊢
    rw [hmc, hhead, ih (ci + 1) hnd' Htail, List.map_cons]

theorem merge_pop_rows (vault : List (String × String)) (tid : String) :
    ∀ (rs : List TNode) (ri : Nat),
      (row_keys tid ri rs).Nodup →
      (∀ k ∈ row_keys tid ri rs,
        alookup k vault = alookup k (pop_rows tid ri rs).2) →
      merge_rows vault tid ri (pop_rows tid ri rs).1 = rs.map strip_row := by
  intro rs
  induction rs with
  | nil => intro ri _ _; rfl
  | cons r rs ih =>
    intro ri hnd H
    obtain ⟨t, a, c, tx, m⟩ := r
    have hcd : (TNode.mk t a c tx m).contentD = c.getD [] := rfl
    have hrk : row_keys tid ri (TNode.mk t a c tx m :: rs) =
        key_row tid ri :: (cell_keys tid ri 0 (c.getD []) ++
          row_keys tid (ri + 1) rs) := rfl
    rw [hrk] at hnd H
    have hnd1 := List.nodup_cons.mp hnd
    have hkr : key_row tid ri ∉
        cell_keys tid ri 0 (c.getD []) ++ row_keys tid (ri + 1) rs := hnd1.1
    have hnd2 := List.nodup_append.mp hnd1.2
    have hkrc : key_row tid ri ∉ cell_keys tid ri 0 (c.getD []) :=
      fun h => hkr (List.mem_append.mpr (Or.inl h))
    have hkrr : key_row tid ri ∉ row_keys tid (ri + 1) rs :=
      fun h => hkr (List.mem_append.mpr (Or.inr h))
    have hpr : pop_rows tid ri (TNode.mk t a c tx m :: rs) =
        ((pop_row tid ri (TNode.mk t a c tx m)).1 ::
          (pop_rows tid (ri + 1) rs).1,
         (pop_row tid ri (TNode.mk t a c tx m)).2 ++
          (pop_rows tid (ri + 1) rs).2) := rfl
    have hrestk : ∀ k, k ∈ row_keys tid (ri + 1) rs →
        k ∉ ((pop_row tid ri (TNode.mk t a c tx m)).2).map Prod.fst := by
      intro k hk
      refine not_mem_keys_of_sub _ _ _
        (keys_pop_row tid ri (TNode.mk t a c tx m)) ?_
      rw [hcd]
      intro hmem
      rcases List.mem_cons.mp hmem with he | hmem
      · exact hkrr (he ▸ hk)
      · exact (List.disjoint_right.mp hnd2.2.2 hk) hmem
    have Hrest : ∀ k ∈ row_keys tid (ri + 1) rs,
        alookup k vault = alookup k (pop_rows tid (ri + 1) rs).2 := by
      intro k hk
      have hx := H k (List.mem_cons_of_mem _ (List.mem_append.mpr (Or.inr hk)))
      rw [hpr] at hx
      exact alookup_localize_right hx (hrestk k hk)
    have htailk : key_row tid ri ∉
        ((pop_rows tid (ri + 1) rs).2).map Prod.fst :=
      not_mem_keys_of_sub _ _ _ (keys_pop_rows tid rs (ri + 1)) hkrr
    cases c with
    | none =>
      have hprow : pop_row tid ri (TNode.mk t a none tx m) =
          (.mk t (pop_row_attrs tid ri a).1 none tx m,
           (pop_row_attrs tid ri a).2 ++ []) := rfl
      have H0 := H (key_row tid ri) (List.mem_cons_self _ _)
      rw [hpr, hprow] at H0
      simp only [List.append_nil] at H0
      have hma : merge_row_attrs vault tid ri (pop_row_attrs tid ri a).1 = a :=
        merge_pop_row_attrs vault tid ri a _ H0 htailk
      rw [hpr]
      simp only
      rw [hprow]
      simp only [List.append_nil]
      have hmr : merge_rows vault tid ri
          ((TNode.mk t (pop_row_attrs tid ri a).1 none tx m) ::
            (pop_rows tid (ri + 1) rs).1) =
          merge_row vault tid ri (TNode.mk t (pop_row_attrs tid ri a).1 none tx m) ::
            merge_rows vault tid (ri + 1) (pop_rows tid (ri + 1) rs).1 := rfl
      rw [hmr, ih (ri + 1) hnd2.2.1 Hrest, List.map_cons]
      have : merge_row vault tid ri
          (TNode.mk t (pop_row_attrs tid ri a).1 none tx m) =
          .mk t (merge_row_attrs vault tid ri (pop_row_attrs tid ri a).1)
            none tx m := rfl
      rw [this, hma]
      rfl
    | some cells =>
      have hprow : pop_row tid ri (TNode.mk t a (some cells) tx m) =
          (.mk t (pop_row_attrs tid ri a).1
            (some (pop_cells tid ri 0 cells).1) tx m,
           (pop_row_attrs tid ri a).2 ++ (pop_cells tid ri 0 cells).2) := rfl
      simp only [Option.getD_some] at hkrc hnd2 hrestk
      have H0 := H (key_row tid ri) (List.mem_cons_self _ _)
      rw [hpr, hprow] at H0
      have hcellsnk : key_row tid ri ∉
          ((pop_cells tid ri 0 cells).2).map Prod.fst :=
        not_mem_keys_of_sub _ _ _ (keys_pop_cells tid ri cells 0) hkrc
      have hma : merge_row_attrs vault tid ri (pop_row_attrs tid ri a).1 = a := by
      

        refine merge_pop_row_attrs vault tid ri a
          ((pop_cells tid ri 0 cells).2 ++ (pop_rows tid (ri + 1) rs).2)
          ?_ ?_
        · rw [← List.append_assoc]
          exact H0
        · rw [List.map_append]
          intro hmem
          rcases List.mem_append.mp hmem with hmem | hmem
          · exact hcellsnk hmem
          · exact htailk hmem
      have Hcells : ∀ k ∈ cell_keys tid ri 0 cells,
          alookup k vault = alookup k (pop_cells tid ri 0 cells).2 := by
        intro k hk
        have hkne : k ≠ key_row tid ri := fun he => hkrc (he ▸ hk)
        have hx := H k (List.mem_cons_of_mem _ (List.mem_append.mpr (Or.inl hk)))
        rw [hpr, hprow] at hx
        rw [List.append_assoc] at hx
        have hx1 := alookup_localize_right hx
          (not_mem_keys_of_sub _ _ [key_row tid ri]
            (fun p hp => List.mem_singleton.mpr (keys_pop_row_attrs tid ri a p hp))
            (by simpa using fun he => hkne he))
        exact alookup_localize_left hx1
          (not_mem_keys_of_sub _ _ _ (keys_pop_rows tid rs (ri + 1))
            (List.disjoint_left.mp hnd2.2.2 hk))
      have hmc : merge_cells vault tid ri 0 (pop_cells tid ri 0 cells).1 =
          cells.map strip_cell :=
        merge_pop_cells vault tid ri cells 0 hnd2.1 Hcells
      rw [hpr]
      simp only
      rw [hprow]
      simp only
      have hmr : merge_rows vault tid ri
          ((TNode.mk t (pop_row_attrs tid ri a).1
            (some (pop_cells tid ri 0 cells).1) tx m) ::
            (pop_rows tid (ri + 1) rs).1) =
          merge_row vault tid ri
            (TNode.mk t (pop_row_attrs tid ri a).1
              (some (pop_cells tid ri 0 cells).1) tx m) ::
            merge_rows vault tid (ri + 1) (pop_rows tid (ri + 1) rs).1 := rfl
      rw [hmr, ih (ri + 1) hnd2.2.1 Hrest, List.map_cons]
      have hone : merge_row vault tid ri
          (TNode.mk t (pop_row_attrs tid ri a).1
            (some (pop_cells tid ri 0 cells).1) tx m) =
          .mk t (merge_row_attrs vault tid ri (pop_row_attrs tid ri a).1)
            (some (merge_cells vault tid ri 0 (pop_cells tid ri 0 cells).1))
            tx m := rfl
      rw [hone, hma, hmc]
      rfl

/-! Unfolding equations for the projected-shape predicate, and the keys an
extraction can produce all lie in the keyspace of the tree. -/

theorem wf_node_table (t : String) (a : Option Attrs) (tx : Option String)
    (m : Option (List Mark)) (rows : List TNode) (tid : String)
    (hg : guard_id t a = some tid) :
    wf_node (.mk t a (some rows) tx m) = rows.all wf_row := by
  rw [wf_node.eq_def]
  dsimp only
  rw [hg]

theorem wf_node_generic (t : String) (a : Option Attrs) (tx : Option String)
    (m : Option (List Mark)) (l : List TNode) (hg : guard_id t a = none) :
    wf_node (.mk t a (some l) tx m) = wf_list l := by
  rw [wf_node.eq_def]
  dsimp only
  rw [hg]

theorem wf_node_none (t : String) (a : Option Attrs) (tx : Option String)
    (m : Option (List Mark)) :
    wf_node (.mk t a none tx m) = true := by
  rw [wf_node.eq_def]

theorem wf_list_nil : wf_list [] = true := rfl

theorem wf_list_cons (n : TNode) (l : List TNode) :
    wf_list (n :: l) = (wf_node n && wf_list l) := rfl

theorem keys_extract (fuel : Nat) :
    (∀ n, tsize n ≤ fuel → wf_node n = true →
      ∀ p ∈ (extract_node n).2, p.1 ∈ keyspace_node n) ∧
    (∀ l, lsize l ≤ fuel → wf_list l = true →
      ∀ p ∈ (extract_list l).2, p.1 ∈ keyspace_list l) := by
  induction fuel with
  | zero =>
    constructor
    · intro n hn
      exact absurd hn (by have := tsize_pos n; omega)
    · intro l hl _ p hp
      cases l with
      | nil => rw [extract_list_nil] at hp; cases hp
      | cons n l =>
        exfalso
        have := tsize_pos n
        simp [lsize] at hl
        omega
  | succ fuel ih =>
    have hnode : ∀ n, tsize n ≤ fuel + 1 → wf_node n = true →
        ∀ p ∈ (extract_node n).2, p.1 ∈ keyspace_node n := by
      intro n hn hwf p hp
      obtain ⟨t, a, c, tx, m⟩ := n
      cases c with
      | none =>
        cases hg : guard_id t a with
        | some tid =>
          rw [extract_node_table_nocontent t a tx m tid hg] at hp
          rw [keyspace_node_mk, hg]
          rcases keys_extract_table_attrs tid a p hp with he | he <;>
            simp [he, row_keys]
        | none =>
          rw [extract_node_plain t a tx m hg] at hp
          cases hp
      | some rows =>
        cases hg : guard_id t a with
        | some tid =>
          rw [wf_node_table t a tx m rows tid hg] at hwf
          have htf : table_free_list (pop_rows tid 0 rows).1 = true :=
            tf_pop_rows tid rows (wf_rows_tf rows hwf) 0
          have hpe : extract_list (pop_rows tid 0 rows).1 =
              ((pop_rows tid 0 rows).1, []) := tf_extract_list _ htf
          rw [extract_node_table t a tx m rows tid hg, hpe] at hp
          simp only [List.append_nil] at hp
          rw [keyspace_node_mk, hg]
          rcases List.mem_append.mp hp with hp | hp
          · rcases keys_extract_table_attrs tid a p hp with he | he <;>
              simp [he]
          · have := keys_pop_rows tid rows 0 p hp
            simp only [Option.getD_some]
            exact List.mem_append.mpr (Or.inl
              (List.mem_cons.mpr (Or.inr (List.mem_cons.mpr (Or.inr this)))))
        | none =>
          rw [wf_node_generic t a tx m rows hg] at hwf
          rw [extract_node_generic t a tx m rows hg] at hp
          have hsz : lsize rows ≤ fuel := by
            simp [tsize] at hn
            omega
          have := (ih.2) rows hsz hwf p hp
          rw [keyspace_node_mk, hg]
          simpa using this
    refine ⟨hnode, ?_⟩
    intro l hl hwf p hp
    cases l with
    | nil => rw [extract_list_nil] at hp; cases hp
    | cons n l =>
      rw [wf_list_cons] at hwf
      simp only [Bool.and_eq_true] at hwf
      have h1 : tsize n ≤ fuel + 1 := by
        simp [lsize] at hl
        omega
      have h2 : lsize l ≤ fuel := by
        have := tsize_pos n
        simp [lsize] at hl
        omega
      rw [extract_list_cons] at hp
      rw [keyspace_list_cons]
      rcases List.mem_append.mp hp with hp | hp
      · exact List.mem_append.mpr (Or.inl (hnode n h1 hwf.1 p hp))
      · exact List.mem_append.mpr (Or.inr ((ih.2) l h2 hwf.2 p hp))

theorem keys_extract_list (l : List TNode) (h : wf_list l = true) :
    ∀ p ∈ (extract_list l).2, p.1 ∈ keyspace_list l :=
  (keys_extract (lsize l)).2 l (Nat.le_refl _) h

theorem guard_some_attrs (t : String) (a : Option Attrs) (tid : String)
    (hg : guard_id t a = some tid) : ∃ aa, a = some aa := by
  cases a with
  | some aa => exact ⟨aa, rfl⟩
  | none =>
    exfalso
    simp [guard_id, table_id?] at hg

theorem guard_pop_table_attrs (t tid : String) (aa : Attrs) :
    guard_id t (some (pop_table_attrs tid aa).1) = guard_id t (some aa) := by
  simp [guard_id, table_id?, pop_table_attrs]

/-! The round trip: on a projected-shape tree with a collision-free
keyspace, restoring from exactly the extracted entries rebuilds the
stripped original. -/

theorem vault_round (fuel : Nat) :
    (∀ n vault, tsize n ≤ fuel → wf_node n = true →
      (keyspace_node n).Nodup →
      (∀ k ∈ keyspace_node n, alookup k vault = alookup k (extract_node n).2) →
      restore_node vault (extract_node n).1 = strip_node n) ∧
    (∀ l vault, lsize l ≤ fuel → wf_list l = true →
      (keyspace_list l).Nodup →
      (∀ k ∈ keyspace_list l, alookup k vault = alookup k (extract_list l).2) →
      restore_list vault (extract_list l).1 = strip_list l) := by
  induction fuel with
  | zero =>
    constructor
    · intro n vault hn
      exact absurd hn (by have := tsize_pos n; omega)
    · intro l vault hl _ _ _
      cases l with
      | nil => rw [extract_list_nil, restore_list_nil, strip_list_nil]
      | cons n l =>
        exfalso
        have := tsize_pos n
        simp [lsize] at hl
        omega
  | succ fuel ih =>
    have hnode : ∀ n vault, tsize n ≤ fuel + 1 → wf_node n = true →
        (keyspace_node n).Nodup →
        (∀ k ∈ keyspace_node n, alookup k vault = alookup k (extract_node n).2) →
        restore_node vault (extract_node n).1 = strip_node n := by
      intro n vault hn hwf hnd H
      obtain ⟨t, a, c, tx, m⟩ := n
      cases c with
      | none =>
        cases hg : guard_id t a with
        | none =>
          rw [extract_node_plain t a tx m hg, restore_node_plain vault t a tx m hg,
            strip_node_none]
        | some tid =>
          obtain ⟨aa, rfl⟩ := guard_some_attrs t a tid hg
          rw [keyspace_node_mk, hg] at hnd H
          dsimp only at hnd H
          have hrk0 : row_keys tid 0 ((none : Option (List TNode)).getD []) =
              [] := rfl
          rw [hrk0, List.append_nil] at hnd H
          have hex := extract_node_table_nocontent t (some aa) tx m tid hg
          rw [hex] at H
          simp only [extract_table_attrs] at hex H ⊢
          have hne : key_tblPr tid ≠ key_tblGrid tid := by
            have h := (List.nodup_cons.mp hnd).1
            simpa using h
          have h1 : alookup (key_tblPr tid) vault =
              alookup (key_tblPr tid) (pop_table_attrs tid aa).2 :=
            H (key_tblPr tid) (by simp)
          have h2 : alookup (key_tblGrid tid) vault =
              alookup (key_tblGrid tid) (pop_table_attrs tid aa).2 :=
            H (key_tblGrid tid) (by simp)
          have hma := merge_pop_table_attrs vault tid aa h1 h2 hne
          have hg' : guard_id t (some (pop_table_attrs tid aa).1) = some tid := by
            rw [guard_pop_table_attrs]
            exact hg
          rw [hex, restore_node_table_nocontent vault t _ tx m tid hg',
            strip_node_none]
          simp only [restore_table_attrs]
          rw [hma]
      | some rows =>
        cases hg : guard_id t a with
        | none =>
          have hwf' : wf_list rows = true := by
            rw [wf_node_generic t a tx m rows hg] at hwf
            exact hwf
          rw [keyspace_node_mk, hg] at hnd H
          dsimp only at hnd H
          simp only [List.nil_append] at hnd H
          have hex := extract_node_generic t a tx m rows hg
          rw [hex] at H
          have hsz : lsize rows ≤ fuel := by
            simp [tsize] at hn
            omega
          rw [hex, restore_node_generic vault t a tx m _ hg,
            strip_node_generic t a tx m rows hg,
            (ih.2) rows vault hsz hwf' hnd H]
        | some tid =>
          have hwf' : rows.all wf_row = true := by
            rw [wf_node_table t a tx m rows tid hg] at hwf
            exact hwf
          have htf_rows := wf_rows_tf rows hwf'
          have htf_pop := tf_pop_rows tid rows htf_rows 0
          have hpe := tf_extract_list _ htf_pop
          obtain ⟨aa, rfl⟩ := guard_some_attrs t a tid hg
          rw [keyspace_node_mk, hg] at hnd H
          dsimp only at hnd H
          simp only [Option.getD_some] at hnd H
          have hndl := (List.nodup_append.mp hnd).1
          have hcP := List.nodup_cons.mp hndl
          have hcG := List.nodup_cons.mp hcP.2
          have hne : key_tblPr tid ≠ key_tblGrid tid :=
            fun he => hcP.1 (he ▸ List.mem_cons_self _ _)
          have hkPrk : key_tblPr tid ∉ row_keys tid 0 rows :=
            fun hh => hcP.1 (List.mem_cons_of_mem _ hh)
          have hkGrk : key_tblGrid tid ∉ row_keys tid 0 rows := hcG.1
          have hndrk : (row_keys tid 0 rows).Nodup := hcG.2
          have hex := extract_node_table t (some aa) tx m rows tid hg
          rw [hpe] at hex
          simp only [List.append_nil, extract_table_attrs] at hex
          rw [hex] at H
          have h1 : alookup (key_tblPr tid) vault =
              alookup (key_tblPr tid) (pop_table_attrs tid aa).2 := by
            have hx := H (key_tblPr tid)
              (List.mem_append.mpr (Or.inl (List.mem_cons_self _ _)))
            exact alookup_localize_left hx
              (not_mem_keys_of_sub _ _ _ (keys_pop_rows tid rows 0) hkPrk)
          have h2 : alookup (key_tblGrid tid) vault =
              alookup (key_tblGrid tid) (pop_table_attrs tid aa).2 := by
            have hx := H (key_tblGrid tid)
              (List.mem_append.mpr (Or.inl
                (List.mem_cons_of_mem _ (List.mem_cons_self _ _))))
            exact alookup_localize_left hx
              (not_mem_keys_of_sub _ _ _ (keys_pop_rows tid rows 0) hkGrk)
          have hma := merge_pop_table_attrs vault tid aa h1 h2 hne
          have Hrows : ∀ k ∈ row_keys tid 0 rows,
              alookup k vault = alookup k (pop_rows tid 0 rows).2 := by
            intro k hk
            have hkP : k ≠ key_tblPr tid := fun he => hkPrk (he ▸ hk)
            have hkG : k ≠ key_tblGrid tid := fun he => hkGrk (he ▸ hk)
            have hx := H k
              (List.mem_append.mpr (Or.inl
                (List.mem_cons_of_mem _ (List.mem_cons_of_mem _ hk))))
            refine alookup_localize_right hx
              (not_mem_keys_of_sub _ _ [key_tblPr tid, key_tblGrid tid]
                (fun p hp => by
                  rcases keys_pop_table_attrs tid aa p hp with he | he <;>
                    simp [he]) ?_)
            intro hmem
            rcases List.mem_cons.mp hmem with he | hmem
            · exact hkP he
            · exact hkG (List.mem_singleton.mp hmem)
          have hmrows := merge_pop_rows vault tid rows 0 hndrk Hrows
          have hg' : guard_id t (some (pop_table_attrs tid aa).1) = some tid := by
            rw [guard_pop_table_attrs]
            exact hg
          rw [hex, restore_node_table vault t _ tx m _ tid hg',
            strip_node_table t (some aa) tx m rows tid hg,
            tf_strip_list _ (tf_map_strip_row rows htf_rows), hmrows,
            tf_restore_list vault _ (tf_map_strip_row rows htf_rows)]
          simp only [restore_table_attrs]
          rw [hma]
    refine ⟨hnode, ?_⟩
    intro l vault hl hwf hnd H
    cases l with
    | nil => rw [extract_list_nil, restore_list_nil, strip_list_nil]
    | cons n l =>
      rw [wf_list_cons] at hwf
      simp only [Bool.and_eq_true] at hwf
      rw [keyspace_list_cons] at hnd H
      have hdisj := (List.nodup_append.mp hnd).2.2
      have h1 : tsize n ≤ fuel + 1 := by
        simp [lsize] at hl
        omega
      have h2 : lsize l ≤ fuel := by
        have := tsize_pos n
        simp [lsize] at hl
        omega
      have hexc := extract_list_cons n l
      rw [hexc] at H
      have Hn : ∀ k ∈ keyspace_node n,
          alookup k vault = alookup k (extract_node n).2 := by
        intro k hk
        have hx := H k (List.mem_append.mpr (Or.inl hk))
        refine alookup_localize_left hx
          (not_mem_keys_of_sub _ _ _ (keys_extract_list l hwf.2) ?_)
        exact List.disjoint_left.mp hdisj hk
      have Hl : ∀ k ∈ keyspace_list l,
          alookup k vault = alookup k (extract_list l).2 := by
        intro k hk
        have hx := H k (List.mem_append.mpr (Or.inr hk))
        refine alookup_localize_right hx
          (not_mem_keys_of_sub _ _ _
            ((keys_extract (tsize n)).1 n (Nat.le_refl _) hwf.1) ?_)
        exact List.disjoint_right.mp hdisj hk
      rw [hexc, restore_list_cons, strip_list_cons,
        hnode n vault h1 hwf.1 (List.nodup_append.mp hnd).1 Hn,
        (ih.2) l vault h2 hwf.2 (List.nodup_append.mp hnd).2.1 Hl]

/-! Restoration against an empty vault touches nothing. -/

theorem merge_cell_nil (tid : String) (ri ci : Nat) (c : TNode) :
    merge_cell [] tid ri ci c = c := by
  obtain ⟨t, a, cc, tx, m⟩ := c
  rfl

theorem merge_cells_nil (tid : String) (ri : Nat) :
    ∀ (cs : List TNode) (ci : Nat), merge_cells [] tid ri ci cs = cs := by
  intro cs
  induction cs with
  | nil => intro ci; rfl
  | cons c cs ih =>
    intro ci
    show merge_cell [] tid ri ci c :: merge_cells [] tid ri (ci + 1) cs = c :: cs
    rw [merge_cell_nil, ih (ci + 1)]

theorem merge_row_attrs_nil (tid : String) (ri : Nat) (a : Option Attrs) :
    merge_row_attrs [] tid ri a = a := rfl

theorem merge_row_nil (tid : String) (ri : Nat) (r : TNode) :
    merge_row [] tid ri r = r := by
  obtain ⟨t, a, c, tx, m⟩ := r
  cases c with
  | none => rfl
  | some cells =>
    show TNode.mk t (merge_row_attrs [] tid ri a)
      (some (merge_cells [] tid ri 0 cells)) tx m = TNode.mk t a (some cells) tx m
    rw [merge_row_attrs_nil, merge_cells_nil]

theorem merge_rows_nil (tid : String) :
    ∀ (rs : List TNode) (ri : Nat), merge_rows [] tid ri rs = rs := by
  intro rs
  induction rs with
  | nil => intro ri; rfl
  | cons r rs ih =>
    intro ri
    show merge_row [] tid ri r :: merge_rows [] tid (ri + 1) rs = r :: rs
    rw [merge_row_nil, ih (ri + 1)]

theorem restore_table_attrs_nil (tid : String) (a : Option Attrs) :
    restore_table_attrs [] tid a = a := by
  cases a <;> rfl

theorem restore_nil (fuel : Nat) :
    (∀ n, tsize n ≤ fuel → restore_node [] n = n) ∧
    (∀ l, lsize l ≤ fuel → restore_list [] l = l) := by
  induction fuel with
  | zero =>
    constructor
    · intro n hn
      exact absurd hn (by have := tsize_pos n; omega)
    · intro l hl
      cases l with
      | nil => exact restore_list_nil []
      | cons n l =>
        exfalso
        have := tsize_pos n
        simp [lsize] at hl
        omega
  | succ fuel ih =>
    have hnode : ∀ n, tsize n ≤ fuel + 1 → restore_node [] n = n := by
      intro n hn
      obtain ⟨t, a, c, tx, m⟩ := n
      cases c with
      | none =>
        cases hg : guard_id t a with
        | none => rw [restore_node_plain [] t a tx m hg]
        | some tid =>
          rw [restore_node_table_nocontent [] t a tx m tid hg,
            restore_table_attrs_nil]
      | some rows =>
        have hsz : lsize rows ≤ fuel := by
          simp [tsize] at hn
          omega
        cases hg : guard_id t a with
        | none =>
          rw [restore_node_generic [] t a tx m rows hg, (ih.2) rows hsz]
        | some tid =>
          rw [restore_node_table [] t a tx m rows tid hg,
            restore_table_attrs_nil, merge_rows_nil, (ih.2) rows hsz]
    refine ⟨hnode, ?_⟩
    intro l hl
    cases l with
    | nil => exact restore_list_nil []
    | cons n l =>
      have h1 : tsize n ≤ fuel + 1 := by
        simp [lsize] at hl
        omega
      have h2 : lsize l ≤ fuel := by
        have := tsize_pos n
        simp [lsize] at hl
        omega
      rw [restore_list_cons, hnode n h1, (ih.2) l h2]

/-! Extraction never changes a node's type, so it cannot manufacture a
reserved storage node. -/

theorem extract_node_type (n : TNode) : ((extract_node n).1).type = n.type := by
  obtain ⟨t, a, c, tx, m⟩ := n
  cases c with
  | none =>
    cases hg : guard_id t a with
    | none => rw [extract_node_plain t a tx m hg]
    | some tid =>
      rw [extract_node_table_nocontent t a tx m tid hg]
      rfl
  | some rows =>
    cases hg : guard_id t a with
    | none =>
      rw [extract_node_generic t a tx m rows hg]
      rfl
    | some tid =>
      rw [extract_node_table t a tx m rows tid hg]
      rfl

theorem extract_list_types (l : List TNode) :
    ((extract_list l).1).map TNode.type = l.map TNode.type := by
  induction l with
  | nil => rw [extract_list_nil]
  | cons n l ih =>
    rw [extract_list_cons]
    show ((extract_node n).1).type :: ((extract_list l).1).map TNode.type =
      n.type :: l.map TNode.type
    rw [extract_node_type, ih]

theorem getLast?_none {α : Type} (l : List α) (h : l.getLast? = none) :
    l = [] := by
  cases l with
  | nil => rfl
  | cons x xs =>
    exfalso
    induction xs generalizing x with
    | nil => cases h
    | cons y ys ih =>
      rw [List.getLast?_cons_cons] at h
      exact ih y h

theorem mem_of_getLast {α : Type} (l : List α) (a : α)
    (h : l.getLast? = some a) : a ∈ l := by
  induction l with
  | nil => cases h
  | cons x xs ih =>
    cases xs with
    | nil =>
      rw [List.getLast?_singleton] at h
      rw [Option.some.injEq] at h
      simp [h]
    | cons y ys =>
      rw [List.getLast?_cons_cons] at h
      exact List.mem_cons_of_mem _ (ih h)

/-- C1. Fidelity-vault round trip: on projected content (rows and cells are
plain nodes, cell regions table-free), with collision-free vault keys and no
top-level node already using the reserved type, extracting the raw styles
into the trailing storage node and then restoring from that node rebuilds
exactly the original content minus the permanently dropped `colwidth`
attributes — every vaulted `tblPr`/`tblGrid`/row/cell fragment returns to
its holder. -/
theorem c1_vault_round_trip (content : List TNode)
    (hwf : wf_list content = true)
    (hnd : (keyspace_list content).Nodup)
    (hty : ∀ n ∈ content, n.type ≠ "rawStylesStorage") :
    restore_raw_styles (attach_raw_styles content) = strip_list content := by
  have hround : restore_list (extract_list content).2 (extract_list content).1 =
      strip_list content :=
    (vault_round (lsize content)).2 content (extract_list content).2
      (Nat.le_refl _) hwf hnd (fun k _ => rfl)
  have hatt : attach_raw_styles content =
      (if ((extract_list content).2).isEmpty then (extract_list content).1
       else (extract_list content).1 ++ [storage_node (extract_list content).2]) :=
    rfl
  rw [hatt]
  by_cases hE : ((extract_list content).2).isEmpty
  · rw [if_pos hE]
    have hEe : (extract_list content).2 = [] := by
      cases h2 : (extract_list content).2 with
      | nil => rfl
      | cons p ps =>
        rw [h2] at hE
        simp [List.isEmpty] at hE
    rw [hEe] at hround
    have hq1 : restore_list [] (extract_list content).1 =
        (extract_list content).1 :=
      (restore_nil (lsize (extract_list content).1)).2 _ (Nat.le_refl _)
    have hqs : (extract_list content).1 = strip_list content := by
      rw [← hq1]
      exact hround
    cases hlast : ((extract_list content).1).getLast? with
    | none =>
      rw [restore_raw_styles, hlast]
      exact hqs
    | some x =>
      have hxmem := mem_of_getLast _ x hlast
      have hxty : ¬ x.type = "rawStylesStorage" := by
        have h1 : x.type ∈ ((extract_list content).1).map TNode.type :=
          List.mem_map_of_mem _ hxmem
        rw [extract_list_types] at h1
        obtain ⟨n', hn', he⟩ := List.mem_map.mp h1
        exact he ▸ hty n' hn'
      rw [restore_raw_styles, hlast]
      dsimp only
      rw [if_neg hxty]
      exact hqs
  · rw [if_neg hE]
    rw [restore_raw_styles, List.getLast?_concat]
    dsimp only
    rw [if_pos (show (storage_node (extract_list content).2).type =
      "rawStylesStorage" from rfl)]
    rw [List.dropLast_concat]
    exact hround

theorem c1_vault_round_trip_witness :
    (wf_list [TNode.mk "table"
        (some { id := some "t1", rawTblPr := some "PR" }) none none none] = true ∧
      (keyspace_list [TNode.mk "table"
        (some { id := some "t1", rawTblPr := some "PR" }) none none none]).Nodup ∧
      (∀ n ∈ [TNode.mk "table"
        (some { id := some "t1", rawTblPr := some "PR" }) none none none],
        n.type ≠ "rawStylesStorage")) ∧
    restore_raw_styles (attach_raw_styles
      [TNode.mk "table"
        (some { id := some "t1", rawTblPr := some "PR" }) none none none]) =
      strip_list [TNode.mk "table"
        (some { id := some "t1", rawTblPr := some "PR" }) none none none] :=
  ⟨⟨by decide, by decide, by decide⟩,
   c1_vault_round_trip _ (by decide) (by decide) (by decide)⟩

end Vault

end Dedit
